import Mathlib

/-!
Verification of the `@ldesign/env` configuration engine against its
specification.  The development shallowly embeds the relevant TypeScript
sources:

* `CryptoManager` (AES-256-GCM envelope encryption): the envelope plumbing
  (prefix, base64, fixed 16/16/rest offsets) is embedded directly; the AEAD
  primitive itself (Node's `crypto` module, external to the repository) is
  kept abstract as a pair of seal/open functions.
* `ConfigMerger` (deep merge, diff, flatten/unflatten).
* `SchemaValidator` (Zod-based schema validation).

JavaScript strings are modelled as lists of characters (`Str`), bytes as
natural numbers below 256.
-/

set_option maxHeartbeats 1000000

namespace LdesignEnv

/-- JS strings are modelled as lists of characters. -/
abbrev Str := List Char

/-! ## Base64 — model of Node `Buffer.toString('base64')` / `Buffer.from(s, 'base64')` -/

/-- The base64 alphabet, in index order. -/
def b64chars : Str :=
  "ABCDEFGHIJKLMNOPQRSTUVWXYZabcdefghijklmnopqrstuvwxyz0123456789+/".toList

/-- Character for a 6-bit value. -/
def b64c (n : Nat) : Char := b64chars.getD n 'A'

/-- Index of a character in an alphabet (position of first occurrence). -/
def b64find : Str → Char → Option Nat
  | [], _ => none
  | c :: rest, d => if c = d then some 0 else (b64find rest d).map (· + 1)

/-- 6-bit value of a base64 character (`none` for `=` and other non-alphabet
characters, which Node's decoder skips). -/
def b64index (c : Char) : Option Nat := b64find b64chars c

/-- RFC 4648 base64 encoding of a byte list, with `=` padding
(as produced by `Buffer.toString('base64')`). -/
def base64Encode : List Nat → Str
  | a :: b :: c :: rest =>
      b64c (a / 4) :: b64c ((a % 4) * 16 + b / 16) ::
      b64c ((b % 16) * 4 + c / 64) :: b64c (c % 64) :: base64Encode rest
  | [a, b] => [b64c (a / 4), b64c ((a % 4) * 16 + b / 16), b64c ((b % 16) * 4), '=']
  | [a] => [b64c (a / 4), b64c ((a % 4) * 16), '=', '=']
  | [] => []

/-- The 6-bit values of the alphabet characters of a string, non-alphabet
characters (including padding) skipped — as Node's base64 decoder does. -/
def b64sextets (s : Str) : List Nat := s.filterMap b64index

/-- Reassemble bytes from 6-bit groups (4 sextets to 3 bytes, with the
shortened final group of the padded encodings). -/
def b64group : List Nat → List Nat
  | w :: x :: y :: z :: rest =>
      (w * 4 + x / 16) :: ((x % 16) * 16 + y / 4) :: ((y % 4) * 64 + z) :: b64group rest
  | [w, x, y] => [w * 4 + x / 16, (x % 16) * 16 + y / 4]
  | [w, x] => [w * 4 + x / 16]
  | _ => []

/-- Base64 decoding (model of `Buffer.from(s, 'base64')`). -/
def base64Decode (s : Str) : List Nat := b64group (b64sextets s)

theorem b64index_b64c (n : Nat) (h : n < 64) : b64index (b64c n) = some n := by
  revert h
  revert n
  decide

theorem b64index_pad : b64index '=' = none := by decide

theorem b64sextets_cons (c : Char) (s : Str) :
    b64sextets (c :: s) =
      match b64index c with
      | some v => v :: b64sextets s
      | none => b64sextets s := by
  simp only [b64sextets, List.filterMap_cons]
  cases b64index c <;> rfl

theorem b64sextets_b64c_cons (n : Nat) (h : n < 64) (s : Str) :
    b64sextets (b64c n :: s) = n :: b64sextets s := by
  rw [b64sextets_cons, b64index_b64c n h]

theorem b64sextets_pad_cons (s : Str) :
    b64sextets ('=' :: s) = b64sextets s := by
  rw [b64sextets_cons, b64index_pad]

/-- Decoding inverts encoding on genuine byte lists. -/
theorem base64_roundtrip (bs : List Nat) (h : ∀ b ∈ bs, b < 256) :
    base64Decode (base64Encode bs) = bs := by
  induction bs using base64Encode.induct with
  | case1 a b c rest ih =>
    have ha : a < 256 := h a (by simp)
    have hb : b < 256 := h b (by simp)
    have hc : c < 256 := h c (by simp)
    have hrest : ∀ x ∈ rest, x < 256 := fun x hx => h x (by simp [hx])
    have ih' := ih hrest
    unfold base64Decode at ih' ⊢
    rw [base64Encode]
    rw [b64sextets_b64c_cons _ (by omega), b64sextets_b64c_cons _ (by omega),
        b64sextets_b64c_cons _ (by omega), b64sextets_b64c_cons _ (by omega)]
    rw [b64group]
    rw [ih']
    have e1 : a / 4 * 4 + ((a % 4) * 16 + b / 16) / 16 = a := by omega
    have e2 : ((a % 4) * 16 + b / 16) % 16 * 16 + ((b % 16) * 4 + c / 64) / 4 = b := by omega
    have e3 : ((b % 16) * 4 + c / 64) % 4 * 64 + c % 64 = c := by omega
    rw [e1, e2, e3]
  | case2 a b =>
    have ha : a < 256 := h a (by simp)
    have hb : b < 256 := h b (by simp)
    unfold base64Decode
    rw [base64Encode]
    rw [b64sextets_b64c_cons _ (by omega), b64sextets_b64c_cons _ (by omega),
        b64sextets_b64c_cons _ (by omega), b64sextets_pad_cons]
    have hnil : b64sextets [] = [] := rfl
    rw [hnil, b64group]
    have e1 : a / 4 * 4 + ((a % 4) * 16 + b / 16) / 16 = a := by omega
    have e2 : ((a % 4) * 16 + b / 16) % 16 * 16 + (b % 16) * 4 / 4 = b := by omega
    rw [e1, e2]
  | case3 a =>
    have ha : a < 256 := h a (by simp)
    unfold base64Decode
    rw [base64Encode]
    rw [b64sextets_b64c_cons _ (by omega), b64sextets_b64c_cons _ (by omega),
        b64sextets_pad_cons, b64sextets_pad_cons]
    have hnil : b64sextets [] = [] := rfl
    rw [hnil, b64group]
    have e1 : a / 4 * 4 + (a % 4) * 16 / 16 = a := by omega
    rw [e1]
  | case4 => rfl

/-! ## CryptoManager envelope (src/unnamed/part_007)

The AEAD primitive (`createCipheriv('aes-256-gcm', ...)` from Node's
`crypto` module) is external to the repository; it is modelled abstractly
as `aeadSeal : key → iv → plaintext → ciphertext × authTag` and
`aeadOpen : key → iv → authTag → ciphertext → Option plaintext`.
Plaintexts are byte lists (the UTF-8 bytes of the JS string). -/

/-- The `encrypted:` marker prepended to every ciphertext. -/
def encryptedMarker : Str := "encrypted:".toList

/-- `CryptoManager.isEncrypted`: pure marker check. -/
def isEncrypted (s : Str) : Bool := List.isPrefixOf encryptedMarker s

/-- `CryptoManager.encrypt`: seal with a fresh IV, then emit
`encrypted:` ++ base64(IV ‖ AuthTag ‖ Ciphertext). -/
def encryptEnvelope {K : Type} (aeadSeal : K → List Nat → List Nat → List Nat × List Nat)
    (key : K) (iv plaintext : List Nat) : Str :=
  let sealed := aeadSeal key iv plaintext
  encryptedMarker ++ base64Encode (iv ++ sealed.2 ++ sealed.1)

/-- `CryptoManager.decrypt`: strip the marker if present, base64-decode,
split at byte offsets 16/16/rest, authenticate and decrypt. -/
def decryptEnvelope {K : Type} (aeadOpen : K → List Nat → List Nat → List Nat → Option (List Nat))
    (key : K) (ciphertext : Str) : Option (List Nat) :=
  let text := if List.isPrefixOf encryptedMarker ciphertext
              then ciphertext.drop 10 else ciphertext
  let combined := base64Decode text
  let iv := combined.take 16
  let authTag := (combined.drop 16).take 16
  let encrypted := combined.drop 32
  aeadOpen key iv authTag encrypted

theorem isPrefixOf_append (p s : Str) : List.isPrefixOf p (p ++ s) = true := by
  induction p with
  | nil => simp [List.isPrefixOf]
  | cons c rest ih => simp [List.isPrefixOf, ih]

/-- C1: for every key and plaintext, decrypting the envelope produced by
`encrypt` under the same key returns the plaintext, provided the
(external) AEAD cipher round-trips, with a 16-byte IV and a 16-byte
authentication tag: the marker is stripped, base64 is inverted, and the
16/16/rest split recovers exactly the IV, tag and ciphertext. -/
theorem c1_encrypt_decrypt_roundtrip {K : Type}
    (aeadSeal : K → List Nat → List Nat → List Nat × List Nat)
    (aeadOpen : K → List Nat → List Nat → List Nat → Option (List Nat))
    (key : K) (iv plaintext : List Nat)
    (hiv : iv.length = 16)
    (htag : (aeadSeal key iv plaintext).2.length = 16)
    (hbytes : ∀ b ∈ iv ++ (aeadSeal key iv plaintext).2 ++ (aeadSeal key iv plaintext).1, b < 256)
    (hopen : aeadOpen key iv (aeadSeal key iv plaintext).2 (aeadSeal key iv plaintext).1
              = some plaintext) :
    decryptEnvelope aeadOpen key (encryptEnvelope aeadSeal key iv plaintext) = some plaintext := by
  unfold encryptEnvelope decryptEnvelope
  simp only [isPrefixOf_append, if_pos]
  have hdrop : (encryptedMarker ++
      base64Encode (iv ++ (aeadSeal key iv plaintext).2 ++ (aeadSeal key iv plaintext).1)).drop 10
      = base64Encode (iv ++ (aeadSeal key iv plaintext).2 ++ (aeadSeal key iv plaintext).1) := by
    have h10 : encryptedMarker.length = 10 := by decide
    rw [← h10, List.drop_left]
  rw [hdrop, base64_roundtrip _ hbytes]
  have htake : (iv ++ (aeadSeal key iv plaintext).2 ++ (aeadSeal key iv plaintext).1).take 16
      = iv := by
    rw [List.append_assoc, ← hiv, List.take_left]
  have hdrop16 : (iv ++ (aeadSeal key iv plaintext).2 ++ (aeadSeal key iv plaintext).1).drop 16
      = (aeadSeal key iv plaintext).2 ++ (aeadSeal key iv plaintext).1 := by
    rw [List.append_assoc, ← hiv, List.drop_left]
  have htag16 : ((aeadSeal key iv plaintext).2 ++ (aeadSeal key iv plaintext).1).take 16
      = (aeadSeal key iv plaintext).2 := by
    rw [← htag, List.take_left]
  have hdrop32 : (iv ++ (aeadSeal key iv plaintext).2 ++ (aeadSeal key iv plaintext).1).drop 32
      = (aeadSeal key iv plaintext).1 := by
    have hlen : (iv ++ (aeadSeal key iv plaintext).2).length = 32 := by
      simp [hiv, htag]
    rw [← hlen, List.drop_left]
  rw [htake, hdrop16, htag16, hdrop32, hopen]

theorem c1_encrypt_decrypt_roundtrip_witness :
    decryptEnvelope (fun _ _ _ ct => some ct) ()
      (encryptEnvelope (fun _ _ pt => (pt, List.replicate 16 0)) ()
        (List.replicate 16 0) [104, 105]) = some [104, 105] := by
  exact c1_encrypt_decrypt_roundtrip
    (fun _ _ pt => (pt, List.replicate 16 0)) (fun _ _ _ ct => some ct)
    () (List.replicate 16 0) [104, 105]
    (by decide) (by decide) (by decide) (by decide)

/-! ## The configuration value model

JS configuration values: strings, numbers, booleans, null, arrays, plain
nested objects, `Date` and `RegExp` instances.  Objects are insertion-ordered
association lists (JS object semantics).  JS numbers are IEEE doubles;
finite numeric values are modelled as integers (no claim depends on
fractional values), and the NaN value — the one number for which `===` is
false even on itself — is carried explicitly as `vnan`. -/

inductive Value where
  | vstr (s : Str)
  | vnum (n : Int)
  | vnan
  | vbool (b : Bool)
  | vnull
  | varr (items : List Value)
  | vobj (entries : List (Str × Value))
  | vdate (time : Int)
  | vregex (src : Str)

instance : Inhabited Value := ⟨Value.vnull⟩

/-- A JS object: insertion-ordered association list with distinct keys. -/
abbrev Obj := List (Str × Value)

/-- Property lookup `o[k]` (first matching key; JS objects never repeat keys). -/
def lookupV : Obj → Str → Option Value
  | [], _ => none
  | (k, v) :: rest, key => if k = key then some v else lookupV rest key

/-- `k in o`. -/
def hasKey (o : Obj) (k : Str) : Bool := (lookupV o k).isSome

/-- `Object.keys(o)`. -/
def keysOf (o : Obj) : List Str := o.map Prod.fst

/-- Property assignment `o[k] = v`: replaces in place when the key exists,
appends otherwise (JS insertion-order semantics). -/
def setKey : Obj → Str → Value → Obj
  | [], key, v => [(key, v)]
  | (k, w) :: rest, key, v =>
      if k = key then (k, v) :: rest else (k, w) :: setKey rest key v

/-- `ConfigMerger.isPlainObject`: an object that is not null, an array,
a `Date` or a `RegExp`. -/
def isPlainObject : Value → Bool
  | .vobj _ => true
  | _ => false

mutual

/-- Structural equality of values.  This models JS `===` in the reference
code's fast path: it coincides with `===` on primitives — including
`NaN === NaN` being false — and on identical references (the only cases
the diff algorithm relies on); reference identity itself is not
representable in a pure value model. -/
def beqValue : Value → Value → Bool
  | .vstr a, .vstr b => a == b
  | .vnum a, .vnum b => a == b
  | .vnan, .vnan => false
  | .vbool a, .vbool b => a == b
  | .vnull, .vnull => true
  | .vdate a, .vdate b => a == b
  | .vregex a, .vregex b => a == b
  | .varr xs, .varr ys => beqValueList xs ys
  | .vobj xs, .vobj ys => beqEntryList xs ys
  | _, _ => false

def beqValueList : List Value → List Value → Bool
  | [], [] => true
  | x :: xs, y :: ys => beqValue x y && beqValueList xs ys
  | _, _ => false

def beqEntryList : List (Str × Value) → List (Str × Value) → Bool
  | [], [] => true
  | (k, v) :: xs, (k2, v2) :: ys => k == k2 && beqValue v v2 && beqEntryList xs ys
  | _, _ => false

end

mutual

/-- No `NaN` occurs anywhere in the value — the condition under which the
source's `===`-based comparisons behave reflexively. -/
def nanFree : Value → Bool
  | .vnan => false
  | .varr xs => nanFreeList xs
  | .vobj xs => nanFreeEntries xs
  | _ => true

def nanFreeList : List Value → Bool
  | [] => true
  | x :: xs => nanFree x && nanFreeList xs

def nanFreeEntries : List (Str × Value) → Bool
  | [] => true
  | (_, v) :: xs => nanFree v && nanFreeEntries xs

end

mutual

theorem beqValue_refl : ∀ v : Value, nanFree v = true → beqValue v v = true
  | .vstr a, _ => by simp [beqValue]
  | .vnum a, _ => by simp [beqValue]
  | .vnan, h => by rw [nanFree] at h; cases h
  | .vbool a, _ => by simp [beqValue]
  | .vnull, _ => by simp [beqValue]
  | .vdate a, _ => by simp [beqValue]
  | .vregex a, _ => by simp [beqValue]
  | .varr xs, h => by
      have hl := beqValueList_refl xs (by rw [nanFree] at h; exact h)
      simp [beqValue, hl]
  | .vobj xs, h => by
      have hl := beqEntryList_refl xs (by rw [nanFree] at h; exact h)
      simp [beqValue, hl]

theorem beqValueList_refl : ∀ xs : List Value, nanFreeList xs = true → beqValueList xs xs = true
  | [], _ => by simp [beqValueList]
  | x :: xs, h => by
      rw [nanFreeList, Bool.and_eq_true] at h
      simp [beqValueList, beqValue_refl x h.1, beqValueList_refl xs h.2]

theorem beqEntryList_refl : ∀ xs : List (Str × Value),
    nanFreeEntries xs = true → beqEntryList xs xs = true
  | [], _ => by simp [beqEntryList]
  | (k, v) :: xs, h => by
      rw [nanFreeEntries, Bool.and_eq_true] at h
      simp [beqEntryList, beqValue_refl v h.1, beqEntryList_refl xs h.2]

end

mutual

/-- `ConfigMerger.areEqual`: deep structural comparison — `===` fast path,
then plain objects by key set and recursive values, arrays element-by-element
with equal length, `false` otherwise. -/
def areEqual (a b : Value) : Bool :=
  if beqValue a b then true else areEqualCore a b
termination_by (sizeOf a, 1)

def areEqualCore : Value → Value → Bool
  | .vobj xs, .vobj ys => (xs.length == ys.length) && objEvery xs ys
  | .varr xs, .varr ys => (xs.length == ys.length) && arrEvery xs ys
  | _, _ => false
termination_by a b => (sizeOf a, 0)

def objEvery : Obj → Obj → Bool
  | [], _ => true
  | (k, v) :: rest, ys =>
      (match lookupV ys k with
       | some w => areEqual v w
       | none => false) && objEvery rest ys
termination_by xs ys => (sizeOf xs, 0)

def arrEvery : List Value → List Value → Bool
  | [], _ => true
  | _ :: _, [] => true
  | x :: xs, y :: ys => areEqual x y && arrEvery xs ys
termination_by xs ys => (sizeOf xs, 0)

end

theorem areEqual_refl (v : Value) (h : nanFree v = true) : areEqual v v = true := by
  rw [areEqual, beqValue_refl v h]
  rfl

/-- `areEqual` is not reflexive at NaN, exactly as in the source:
`NaN === NaN` is false, and NaN is neither a plain object nor an array. -/
theorem areEqual_nan : areEqual Value.vnan Value.vnan = false := by
  rw [areEqual]
  rw [show beqValue Value.vnan Value.vnan = false from by rw [beqValue]]
  simp only [Bool.false_eq_true, if_false]
  simp [areEqualCore]

/-! ## `ConfigMerger.diff` -/

/-- The categorized diff of two configurations. -/
structure DiffResult where
  added : List Str
  removed : List Str
  modified : List (Str × Value × Value)
  unchanged : List Str

/-- `o[k]` in a context where the key is known present (`vnull` placeholder
keeps the function total). -/
def getOr (o : Obj) (k : Str) : Value := (lookupV o k).getD .vnull

/-- JS `new Set(list)` insertion order: first occurrences, in order. -/
def jsSetDedup : List Str → List Str
  | [] => []
  | k :: rest => k :: jsSetDedup (rest.filter (fun x => !(x == k)))
termination_by l => l.length
decreasing_by
  simp only [List.length_cons]
  have := List.length_filter_le (fun x => !(x == k)) rest
  omega

/-- One iteration of the diff loop: classify key `k` into exactly one group. -/
def diffStep (a b : Obj) (r : DiffResult) (k : Str) : DiffResult :=
  let hasInFrom := hasKey a k
  let hasInTo := hasKey b k
  if !hasInFrom && hasInTo then { r with added := r.added ++ [k] }
  else if hasInFrom && !hasInTo then { r with removed := r.removed ++ [k] }
  else if hasInFrom && hasInTo then
    if areEqual (getOr a k) (getOr b k) then { r with unchanged := r.unchanged ++ [k] }
    else { r with modified := r.modified ++ [(k, getOr a k, getOr b k)] }
  else r

/-- `ConfigMerger.diff`: iterate over `new Set([...keys(from), ...keys(to)])`. -/
def diff (a b : Obj) : DiffResult :=
  (jsSetDedup (keysOf a ++ keysOf b)).foldl (diffStep a b) ⟨[], [], [], []⟩

theorem mem_jsSetDedup (l : List Str) (x : Str) : x ∈ jsSetDedup l ↔ x ∈ l := by
  induction l using jsSetDedup.induct with
  | case1 => simp [jsSetDedup]
  | case2 k rest ih =>
    rw [jsSetDedup]
    simp only [List.mem_cons, ih, List.mem_filter]
    constructor
    · rintro (h | ⟨h, _⟩)
      · exact Or.inl h
      · exact Or.inr h
    · rintro (h | h)
      · exact Or.inl h
      · by_cases hx : x = k
        · exact Or.inl hx
        · exact Or.inr ⟨h, by simp [hx]⟩

theorem jsSetDedup_self_append (l : List Str) (h : l.Nodup) : jsSetDedup (l ++ l) = l := by
  have main : ∀ l : List Str, l.Nodup → ∀ t : List Str, t ⊆ l →
      jsSetDedup (l ++ t) = l := by
    intro l
    induction l with
    | nil =>
      intro _ t ht
      have : t = [] := List.eq_nil_iff_forall_not_mem.mpr fun a ha => (List.not_mem_nil a) (ht ha)
      simp [this, jsSetDedup]
    | cons k rest ih =>
      intro hnd t ht
      have hk : k ∉ rest := (List.nodup_cons.mp hnd).1
      have hrest : rest.Nodup := (List.nodup_cons.mp hnd).2
      rw [List.cons_append, jsSetDedup]
      have hfil : (rest ++ t).filter (fun x => !(x == k)) =
          rest ++ t.filter (fun x => !(x == k)) := by
        rw [List.filter_append]
        congr 1
        exact List.filter_eq_self.mpr fun a ha => by
          simp only [Bool.not_eq_true', beq_eq_false_iff_ne]
          exact fun he => hk (he ▸ ha)
      rw [hfil]
      have hsub : t.filter (fun x => !(x == k)) ⊆ rest := by
        intro a ha
        rw [List.mem_filter] at ha
        rcases List.mem_cons.mp (ht ha.1) with h1 | h1
        · exact absurd h1 (by simpa using ha.2)
        · exact h1
      rw [ih hrest _ hsub]
  exact main l h l (fun a ha => ha)

theorem hasKey_iff_mem (o : Obj) (k : Str) : hasKey o k = true ↔ k ∈ keysOf o := by
  induction o with
  | nil => simp [hasKey, lookupV, keysOf]
  | cons kv rest ih =>
    obtain ⟨k1, v1⟩ := kv
    by_cases h : k1 = k
    · subst h
      simp [hasKey, lookupV, keysOf]
    · simp only [hasKey, lookupV, if_neg h, keysOf, List.map_cons, List.mem_cons]
      have ih' : (lookupV rest k).isSome = true ↔ k ∈ List.map Prod.fst rest := ih
      rw [ih']
      constructor
      · exact Or.inr
      · rintro (h1 | h1)
        · exact absurd h1.symm h
        · exact h1

/-- The diff loop appends, to each group of the accumulator, exactly
the keys of the iteration list satisfying that group's classification. -/
theorem diff_foldl_spec (a b : Obj) (ks : List Str) (r : DiffResult) :
    (ks.foldl (diffStep a b) r).added
      = r.added ++ ks.filter (fun k => !(hasKey a k) && hasKey b k) ∧
    (ks.foldl (diffStep a b) r).removed
      = r.removed ++ ks.filter (fun k => hasKey a k && !(hasKey b k)) ∧
    (ks.foldl (diffStep a b) r).modified
      = r.modified ++ (ks.filter (fun k =>
          hasKey a k && hasKey b k && !(areEqual (getOr a k) (getOr b k)))).map
            (fun k => (k, getOr a k, getOr b k)) ∧
    (ks.foldl (diffStep a b) r).unchanged
      = r.unchanged ++ ks.filter (fun k =>
          hasKey a k && hasKey b k && areEqual (getOr a k) (getOr b k)) := by
  induction ks generalizing r with
  | nil => simp
  | cons k ks ih =>
    rw [List.foldl_cons]
    obtain ⟨ihA, ihR, ihM, ihU⟩ := ih (diffStep a b r k)
    rw [ihA, ihR, ihM, ihU]
    cases hA : hasKey a k <;> cases hB : hasKey b k
    · simp [diffStep, hA, hB]
    · simp [diffStep, hA, hB]
    · simp [diffStep, hA, hB]
    · cases hE : areEqual (getOr a k) (getOr b k)
      · simp [diffStep, hA, hB, hE]
      · simp [diffStep, hA, hB, hE]

theorem mem_allKeys_iff (a b : Obj) (k : Str) :
    k ∈ jsSetDedup (keysOf a ++ keysOf b) ↔ k ∈ keysOf a ∨ k ∈ keysOf b := by
  rw [mem_jsSetDedup, List.mem_append]

theorem diff_added_iff (a b : Obj) (k : Str) :
    k ∈ (diff a b).added ↔ k ∉ keysOf a ∧ k ∈ keysOf b := by
  obtain ⟨hA, _, _, _⟩ := diff_foldl_spec a b (jsSetDedup (keysOf a ++ keysOf b)) ⟨[], [], [], []⟩
  rw [diff, hA]
  simp only [List.nil_append, List.mem_filter, mem_allKeys_iff,
    Bool.and_eq_true, Bool.not_eq_true']
  rw [← hasKey_iff_mem, ← hasKey_iff_mem]
  constructor
  · rintro ⟨_, h1, h2⟩
    exact ⟨by simp [h1], h2⟩
  · rintro ⟨h1, h2⟩
    refine ⟨Or.inr h2, ?_, h2⟩
    cases h : hasKey a k
    · rfl
    · exact absurd h h1

theorem diff_removed_iff (a b : Obj) (k : Str) :
    k ∈ (diff a b).removed ↔ k ∈ keysOf a ∧ k ∉ keysOf b := by
  obtain ⟨_, hR, _, _⟩ := diff_foldl_spec a b (jsSetDedup (keysOf a ++ keysOf b)) ⟨[], [], [], []⟩
  rw [diff, hR]
  simp only [List.nil_append, List.mem_filter, mem_allKeys_iff,
    Bool.and_eq_true, Bool.not_eq_true']
  rw [← hasKey_iff_mem, ← hasKey_iff_mem]
  constructor
  · rintro ⟨_, h1, h2⟩
    exact ⟨h1, by simp [h2]⟩
  · rintro ⟨h1, h2⟩
    refine ⟨Or.inl h1, h1, ?_⟩
    cases h : hasKey b k
    · rfl
    · exact absurd h h2

theorem diff_modified_iff (a b : Obj) (k : Str) :
    k ∈ (diff a b).modified.map (fun m => m.1) ↔
      k ∈ keysOf a ∧ k ∈ keysOf b ∧ areEqual (getOr a k) (getOr b k) = false := by
  obtain ⟨_, _, hM, _⟩ := diff_foldl_spec a b (jsSetDedup (keysOf a ++ keysOf b)) ⟨[], [], [], []⟩
  rw [diff, hM]
  simp only [List.nil_append]
  constructor
  · intro hmem
    rcases List.mem_map.mp hmem with ⟨m, hm, hmk⟩
    rcases List.mem_map.mp hm with ⟨x, hx, hxm⟩
    rcases List.mem_filter.mp hx with ⟨_, hxp⟩
    subst hxm
    simp only at hmk
    subst hmk
    simp only [Bool.and_eq_true, Bool.not_eq_true'] at hxp
    exact ⟨(hasKey_iff_mem a x).mp hxp.1.1, (hasKey_iff_mem b x).mp hxp.1.2, hxp.2⟩
  · rintro ⟨h1, h2, h3⟩
    apply List.mem_map.mpr
    refine ⟨(k, getOr a k, getOr b k), ?_, rfl⟩
    apply List.mem_map.mpr
    refine ⟨k, ?_, rfl⟩
    apply List.mem_filter.mpr
    refine ⟨(mem_allKeys_iff a b k).mpr (Or.inl h1), ?_⟩
    simp [(hasKey_iff_mem a k).mpr h1, (hasKey_iff_mem b k).mpr h2, h3]

theorem diff_unchanged_iff (a b : Obj) (k : Str) :
    k ∈ (diff a b).unchanged ↔
      k ∈ keysOf a ∧ k ∈ keysOf b ∧ areEqual (getOr a k) (getOr b k) = true := by
  obtain ⟨_, _, _, hU⟩ := diff_foldl_spec a b (jsSetDedup (keysOf a ++ keysOf b)) ⟨[], [], [], []⟩
  rw [diff, hU]
  simp only [List.nil_append]
  constructor
  · intro hmem
    rcases List.mem_filter.mp hmem with ⟨_, hp⟩
    simp only [Bool.and_eq_true] at hp
    exact ⟨(hasKey_iff_mem a k).mp hp.1.1, (hasKey_iff_mem b k).mp hp.1.2, hp.2⟩
  · rintro ⟨h1, h2, h3⟩
    apply List.mem_filter.mpr
    refine ⟨(mem_allKeys_iff a b k).mpr (Or.inl h1), ?_⟩
    simp [(hasKey_iff_mem a k).mpr h1, (hasKey_iff_mem b k).mpr h2, h3]

/-- C2: the four diff groups are pairwise disjoint, their union is exactly
`keys(A) ∪ keys(B)`, and each key is classified `added` iff absent in `A`
and present in `B`, `removed` iff present in `A` and absent in `B`, and
otherwise `modified` or `unchanged` according to the deep structural
equality `areEqual` of the two values. -/
theorem c2_diff_partition (a b : Obj) :
    (∀ k, k ∈ (diff a b).added ↔ k ∉ keysOf a ∧ k ∈ keysOf b) ∧
    (∀ k, k ∈ (diff a b).removed ↔ k ∈ keysOf a ∧ k ∉ keysOf b) ∧
    (∀ k, k ∈ (diff a b).modified.map (fun m => m.1) ↔
        k ∈ keysOf a ∧ k ∈ keysOf b ∧ areEqual (getOr a k) (getOr b k) = false) ∧
    (∀ k, k ∈ (diff a b).unchanged ↔
        k ∈ keysOf a ∧ k ∈ keysOf b ∧ areEqual (getOr a k) (getOr b k) = true) ∧
    (∀ k, (k ∈ (diff a b).added ∨ k ∈ (diff a b).removed ∨
           k ∈ (diff a b).modified.map (fun m => m.1) ∨ k ∈ (diff a b).unchanged) ↔
          (k ∈ keysOf a ∨ k ∈ keysOf b)) ∧
    (∀ k, ¬(k ∈ (diff a b).added ∧ k ∈ (diff a b).removed)) ∧
    (∀ k, ¬(k ∈ (diff a b).added ∧ k ∈ (diff a b).modified.map (fun m => m.1))) ∧
    (∀ k, ¬(k ∈ (diff a b).added ∧ k ∈ (diff a b).unchanged)) ∧
    (∀ k, ¬(k ∈ (diff a b).removed ∧ k ∈ (diff a b).modified.map (fun m => m.1))) ∧
    (∀ k, ¬(k ∈ (diff a b).removed ∧ k ∈ (diff a b).unchanged)) ∧
    (∀ k, ¬(k ∈ (diff a b).modified.map (fun m => m.1) ∧ k ∈ (diff a b).unchanged)) := by
  refine ⟨diff_added_iff a b, diff_removed_iff a b, diff_modified_iff a b,
    diff_unchanged_iff a b, ?_, ?_, ?_, ?_, ?_, ?_, ?_⟩
  · intro k
    rw [diff_added_iff, diff_removed_iff, diff_modified_iff, diff_unchanged_iff]
    constructor
    · rintro (⟨_, h⟩ | ⟨h, _⟩ | ⟨h, _⟩ | ⟨h, _⟩)
      · exact Or.inr h
      · exact Or.inl h
      · exact Or.inl h
      · exact Or.inl h
    · rintro (h | h)
      · by_cases hb : k ∈ keysOf b
        · rcases Bool.dichotomy (areEqual (getOr a k) (getOr b k)) with hE | hE
          · exact Or.inr (Or.inr (Or.inl ⟨h, hb, hE⟩))
          · exact Or.inr (Or.inr (Or.inr ⟨h, hb, hE⟩))
        · exact Or.inr (Or.inl ⟨h, hb⟩)
      · by_cases ha : k ∈ keysOf a
        · rcases Bool.dichotomy (areEqual (getOr a k) (getOr b k)) with hE | hE
          · exact Or.inr (Or.inr (Or.inl ⟨ha, h, hE⟩))
          · exact Or.inr (Or.inr (Or.inr ⟨ha, h, hE⟩))
        · exact Or.inl ⟨ha, h⟩
  · intro k ⟨h1, h2⟩
    rw [diff_added_iff] at h1
    rw [diff_removed_iff] at h2
    exact h1.1 h2.1
  · intro k ⟨h1, h2⟩
    rw [diff_added_iff] at h1
    rw [diff_modified_iff] at h2
    exact h1.1 h2.1
  · intro k ⟨h1, h2⟩
    rw [diff_added_iff] at h1
    rw [diff_unchanged_iff] at h2
    exact h1.1 h2.1
  · intro k ⟨h1, h2⟩
    rw [diff_removed_iff] at h1
    rw [diff_modified_iff] at h2
    exact h1.2 h2.2.1
  · intro k ⟨h1, h2⟩
    rw [diff_removed_iff] at h1
    rw [diff_unchanged_iff] at h2
    exact h1.2 h2.2.1
  · intro k ⟨h1, h2⟩
    rw [diff_modified_iff] at h1
    rw [diff_unchanged_iff] at h2
    rw [h1.2.2] at h2
    exact absurd h2.2.2 (by simp)

theorem lookupV_mem (a : Obj) (k : Str) (v : Value) (h : lookupV a k = some v) :
    (k, v) ∈ a := by
  induction a with
  | nil => simp [lookupV] at h
  | cons kv rest ih =>
    obtain ⟨k1, v1⟩ := kv
    by_cases hk : k1 = k
    · subst hk
      rw [lookupV, if_pos rfl] at h
      injection h with h
      subst h
      exact List.mem_cons_self _ _
    · rw [lookupV, if_neg hk] at h
      exact List.mem_cons_of_mem _ (ih h)

/-- C5 (counterexample to the claim as stated): for `A = {x: NaN}`,
`diff(A, A)` classifies `x` as `modified`, not `unchanged` — `areEqual`
falls through its `===` fast path because `NaN === NaN` is false, and NaN
is neither a plain object nor an array. -/
theorem c5_counterexample :
    (diff [(['x'], Value.vnan)] [(['x'], Value.vnan)]).modified
        = [(['x'], Value.vnan, Value.vnan)] ∧
    (diff [(['x'], Value.vnan)] [(['x'], Value.vnan)]).unchanged = [] := by
  have hded : jsSetDedup (keysOf [(['x'], Value.vnan)] ++ keysOf [(['x'], Value.vnan)])
      = [['x']] := by
    have h1 : keysOf [(['x'], Value.vnan)] = [['x']] := rfl
    rw [h1]
    exact jsSetDedup_self_append [['x']] (by simp)
  have hstep : diffStep [(['x'], Value.vnan)] [(['x'], Value.vnan)] ⟨[], [], [], []⟩ ['x']
      = ⟨[], [], [(['x'], Value.vnan, Value.vnan)], []⟩ := by
    rw [diffStep]
    simp [hasKey, lookupV, getOr, areEqual_nan]
  constructor
  · rw [diff, hded, List.foldl_cons, List.foldl_nil, hstep]
  · rw [diff, hded, List.foldl_cons, List.foldl_nil, hstep]

/-- C5 (amended): `diff(A, A)` has empty `added`, `removed` and `modified`,
and `unchanged` is exactly `keys(A)` (in order), for every `A` (with its
JS-guaranteed distinct keys) none of whose values contains NaN; a NaN
value sends its key to `modified` instead, since `NaN === NaN` is false. -/
theorem c5_diff_identity (a : Obj) (h : (keysOf a).Nodup)
    (hnan : ∀ kv ∈ a, nanFree kv.2 = true) :
    (diff a a).added = [] ∧ (diff a a).removed = [] ∧
    (diff a a).modified = [] ∧ (diff a a).unchanged = keysOf a := by
  obtain ⟨hA, hR, hM, hU⟩ := diff_foldl_spec a a (keysOf a) ⟨[], [], [], []⟩
  have hd : diff a a = (keysOf a).foldl (diffStep a a) ⟨[], [], [], []⟩ := by
    rw [diff, jsSetDedup_self_append _ h]
  have hrefl : ∀ k ∈ keysOf a, areEqual (getOr a k) (getOr a k) = true := by
    intro k hk
    have hhk : hasKey a k = true := (hasKey_iff_mem a k).mpr hk
    rw [hasKey] at hhk
    cases hv : lookupV a k with
    | none =>
      rw [hv] at hhk
      exact absurd hhk (by simp)
    | some v =>
      have hnf : nanFree v = true := hnan (k, v) (lookupV_mem a k v hv)
      rw [getOr, hv]
      exact areEqual_refl v hnf
  rw [hd]
  refine ⟨?_, ?_, ?_, ?_⟩
  · rw [hA]
    simp only [List.nil_append]
    apply List.filter_eq_nil.mpr
    intro k hk
    have : hasKey a k = true := (hasKey_iff_mem a k).mpr hk
    simp [this]
  · rw [hR]
    simp only [List.nil_append]
    apply List.filter_eq_nil.mpr
    intro k hk
    have : hasKey a k = true := (hasKey_iff_mem a k).mpr hk
    simp [this]
  · rw [hM]
    simp only [List.nil_append]
    have : (keysOf a).filter (fun k =>
        hasKey a k && hasKey a k && !(areEqual (getOr a k) (getOr a k))) = [] := by
      apply List.filter_eq_nil.mpr
      intro k hk
      simp [hrefl k hk]
    rw [this]
    rfl
  · rw [hU]
    simp only [List.nil_append]
    apply List.filter_eq_self.mpr
    intro k hk
    have : hasKey a k = true := (hasKey_iff_mem a k).mpr hk
    simp [this, hrefl k hk]

theorem c5_diff_identity_witness :
    (diff [(['A'], Value.vstr ['1'])] [(['A'], Value.vstr ['1'])]).added = [] ∧
    (diff [(['A'], Value.vstr ['1'])] [(['A'], Value.vstr ['1'])]).removed = [] ∧
    (diff [(['A'], Value.vstr ['1'])] [(['A'], Value.vstr ['1'])]).modified = [] ∧
    (diff [(['A'], Value.vstr ['1'])] [(['A'], Value.vstr ['1'])]).unchanged
      = keysOf [(['A'], Value.vstr ['1'])] :=
  c5_diff_identity [(['A'], Value.vstr ['1'])] (by simp [keysOf])
    (by
      intro kv hkv
      rcases List.mem_cons.mp hkv with h1 | h1
      · subst h1
        simp [nanFree]
      · exact absurd h1 (List.not_mem_nil kv))

/-! ## `ConfigMerger.merge` / `deepMerge` -/

/-- `ConfigMerger.deepMerge`: fold the source's entries into the target;
when both the incoming value and the accumulated value at that key are
plain objects, merge them recursively, otherwise overwrite. -/
def deepMerge : Obj → Obj → Obj
  | target, [] => target
  | target, (k, .vobj sv) :: rest =>
      (match lookupV target k with
       | some (.vobj tv) => deepMerge (setKey target k (.vobj (deepMerge tv sv))) rest
       | _ => deepMerge (setKey target k (.vobj sv)) rest)
  | target, (k, v) :: rest => deepMerge (setKey target k v) rest
termination_by _ s => sizeOf s

/-- `ConfigMerger.merge(...configs)`: left-to-right reduce starting from `{}`. -/
def merge (configs : List Obj) : Obj := configs.foldl deepMerge []

/-- The value `merge` stores at a key present in the source: the source's
value, except that two plain objects are deep-merged. -/
def mergedValue (tOpt : Option Value) (v : Value) : Value :=
  match v, tOpt with
  | .vobj sv, some (.vobj tv) => .vobj (deepMerge tv sv)
  | _, _ => v

theorem lookupV_setKey_self (o : Obj) (k : Str) (v : Value) :
    lookupV (setKey o k v) k = some v := by
  induction o with
  | nil => simp [setKey, lookupV]
  | cons kv rest ih =>
    obtain ⟨k1, v1⟩ := kv
    by_cases h : k1 = k
    · subst h
      simp [setKey, lookupV]
    · simp [setKey, lookupV, h, ih]

theorem lookupV_setKey_other (o : Obj) (k k' : Str) (v : Value) (h : k ≠ k') :
    lookupV (setKey o k v) k' = lookupV o k' := by
  induction o with
  | nil => simp [setKey, lookupV, h]
  | cons kv rest ih =>
    obtain ⟨k1, v1⟩ := kv
    by_cases h1 : k1 = k
    · subst h1
      simp [setKey, lookupV, h]
    · by_cases h2 : k1 = k'
      · subst h2
        simp [setKey, lookupV, h1]
      · simp [setKey, lookupV, h1, h2, ih]

/-- One step of `deepMerge` stores `mergedValue` of the clashing values. -/
theorem deepMerge_cons (t : Obj) (k : Str) (v : Value) (rest : Obj) :
    deepMerge t ((k, v) :: rest) = deepMerge (setKey t k (mergedValue (lookupV t k) v)) rest := by
  cases v with
  | vobj sv =>
    cases htv : lookupV t k with
    | some w => cases w <;> simp [deepMerge, mergedValue, htv]
    | none => simp [deepMerge, mergedValue, htv]
  | vstr a => simp [deepMerge, mergedValue]
  | vnum a => simp [deepMerge, mergedValue]
  | vnan => simp [deepMerge, mergedValue]
  | vbool a => simp [deepMerge, mergedValue]
  | vnull => simp [deepMerge, mergedValue]
  | varr a => simp [deepMerge, mergedValue]
  | vdate a => simp [deepMerge, mergedValue]
  | vregex a => simp [deepMerge, mergedValue]

theorem lookupV_deepMerge_not_mem (t s : Obj) (k : Str) (h : k ∉ keysOf s) :
    lookupV (deepMerge t s) k = lookupV t k := by
  induction s generalizing t with
  | nil => rw [deepMerge]
  | cons kv rest ih =>
    obtain ⟨k1, v1⟩ := kv
    have hk1 : k1 ≠ k := fun he => h (he ▸ List.mem_cons_self _ _)
    have hrest : k ∉ keysOf rest := fun hm => h (List.mem_cons_of_mem _ hm)
    rw [deepMerge_cons, ih _ hrest, lookupV_setKey_other _ _ _ _ hk1]

theorem lookupV_deepMerge_mem (s : Obj) (hnd : (keysOf s).Nodup) (t : Obj) (k : Str) (v : Value)
    (hv : lookupV s k = some v) :
    lookupV (deepMerge t s) k = some (mergedValue (lookupV t k) v) := by
  induction s generalizing t with
  | nil => simp [lookupV] at hv
  | cons kv rest ih =>
    obtain ⟨k1, v1⟩ := kv
    rw [deepMerge_cons]
    by_cases h : k1 = k
    · subst h
      rw [lookupV, if_pos rfl] at hv
      injection hv with hv
      subst hv
      have hk1 : k1 ∉ keysOf rest := by
        have := List.nodup_cons.mp hnd
        simpa [keysOf] using this.1
      rw [lookupV_deepMerge_not_mem _ _ _ hk1, lookupV_setKey_self]
    · rw [lookupV, if_neg h] at hv
      have hrest : (keysOf rest).Nodup := by
        have := List.nodup_cons.mp hnd
        simpa [keysOf] using this.2
      rw [ih hrest _ hv, lookupV_setKey_other _ _ _ _ h]

theorem lookupV_deepMerge_empty (a : Obj) (hnd : (keysOf a).Nodup) (k : Str) :
    lookupV (deepMerge [] a) k = lookupV a k := by
  cases ha : lookupV a k with
  | some v =>
    calc lookupV (deepMerge [] a) k
        = some (mergedValue (lookupV [] k) v) := lookupV_deepMerge_mem a hnd [] k v ha
      _ = some v := by cases v <;> rfl
  | none =>
    have hnm : k ∉ keysOf a := by
      intro hm
      have := (hasKey_iff_mem a k).mpr hm
      rw [hasKey, ha] at this
      exact absurd this (by simp)
    calc lookupV (deepMerge [] a) k
        = lookupV [] k := lookupV_deepMerge_not_mem _ _ _ hnm
      _ = none := rfl

/-- C6: `merge(A, B)` maps `k` to `B`'s value whenever `k` is present in `B`
and `B`'s value is not a plain nested object with `k` also a plain-object
key of `A`; on such a collision the later argument wins wholesale (arrays,
dates and regexes included, since only two plain objects recurse). -/
theorem c6_merge_right_bias (a b : Obj) (k : Str) (v : Value)
    (hndA : (keysOf a).Nodup) (hndB : (keysOf b).Nodup)
    (hb : lookupV b k = some v)
    (hnot : ¬(isPlainObject v = true ∧ ∃ tv, lookupV a k = some (.vobj tv))) :
    lookupV (merge [a, b]) k = some v := by
  have hm : merge [a, b] = deepMerge (deepMerge [] a) b := by
    rw [merge]
    rfl
  rw [hm, lookupV_deepMerge_mem b hndB _ k v hb]
  congr 1
  rw [lookupV_deepMerge_empty a hndA]
  cases v with
  | vobj sv =>
    cases ha : lookupV a k with
    | some w =>
      cases w with
      | vobj tv => exact absurd ⟨rfl, tv, ha⟩ hnot
      | vstr s => rfl
      | vnum n => rfl
      | vnan => rfl
      | vbool b' => rfl
      | vnull => rfl
      | varr xs => rfl
      | vdate t => rfl
      | vregex r => rfl
    | none => rfl
  | vstr s => rfl
  | vnum n => rfl
  | vnan => rfl
  | vbool b' => rfl
  | vnull => rfl
  | varr xs => rfl
  | vdate t => rfl
  | vregex r => rfl

theorem c6_merge_right_bias_witness :
    lookupV (merge [[(['x'], Value.vnum 1)], [(['x'], Value.vnum 2)]]) ['x']
      = some (Value.vnum 2) :=
  c6_merge_right_bias [(['x'], Value.vnum 1)] [(['x'], Value.vnum 2)] ['x'] (Value.vnum 2)
    (by simp [keysOf]) (by simp [keysOf]) (by rfl)
    (fun h => by simp [isPlainObject] at h)

/-! ## `CryptoManager.autoDecrypt` -/

/-- The per-field transformation `autoDecrypt` applies: a string value
carrying the `encrypted:` marker is replaced by its decryption when
decryption succeeds and kept as-is when it fails; every other value is
kept as-is. -/
def adStep (dec : Str → Option Str) : Value → Value
  | .vstr s =>
      if isEncrypted s then
        match dec s with
        | some p => .vstr p
        | none => .vstr s
      else .vstr s
  | v => v

/-- `CryptoManager.autoDecrypt`: copy the object and rewrite each field by
`adStep` (the `try/catch` around `decrypt` is the `Option` in `dec`). -/
def autoDecrypt (dec : Str → Option Str) (obj : Obj) : Obj :=
  obj.map (fun kv => (kv.1, adStep dec kv.2))

/-- C8: `autoDecrypt` examines every field in order (keys unchanged),
replaces exactly the string values satisfying `isEncrypted` whose
decryption succeeds, and leaves untouched any field that is not an
encrypted string as well as any field whose decryption fails; being a
total function it never throws. -/
theorem c8_autoDecrypt_per_field (dec : Str → Option Str) (obj : Obj) :
    (∀ i : Nat, (autoDecrypt dec obj)[i]? = (obj[i]?).map (fun kv => (kv.1, adStep dec kv.2))) ∧
    (∀ s, isEncrypted s = false → adStep dec (.vstr s) = .vstr s) ∧
    (∀ s, dec s = none → adStep dec (.vstr s) = .vstr s) ∧
    (∀ s p, isEncrypted s = true → dec s = some p → adStep dec (.vstr s) = .vstr p) ∧
    (∀ v : Value, (∀ s, v ≠ .vstr s) → adStep dec v = v) := by
  refine ⟨?_, ?_, ?_, ?_, ?_⟩
  · intro i
    simp [autoDecrypt]
  · intro s h
    simp [adStep, h]
  · intro s h
    cases he : isEncrypted s <;> simp [adStep, he, h]
  · intro s p he hd
    simp [adStep, he, hd]
  · intro v hv
    cases v with
    | vstr s => exact absurd rfl (hv s)
    | vnum n => rfl
    | vnan => rfl
    | vbool b => rfl
    | vnull => rfl
    | varr xs => rfl
    | vobj m => rfl
    | vdate t => rfl
    | vregex r => rfl

theorem c8_autoDecrypt_per_field_witness :
    (autoDecrypt (fun _ => none) [(['k'], Value.vstr ("encrypted:x".toList))])[0]?
        = some (['k'], adStep (fun _ => none) (Value.vstr ("encrypted:x".toList))) ∧
    adStep (fun _ => none) (Value.vstr ("encrypted:x".toList))
        = Value.vstr ("encrypted:x".toList) :=
  ⟨(c8_autoDecrypt_per_field (fun _ => none) [(['k'], Value.vstr ("encrypted:x".toList))]).1 0,
   (c8_autoDecrypt_per_field (fun _ => none) []).2.2.1 ("encrypted:x".toList) rfl⟩

/-! ## `ConfigMerger.flatten` / `unflatten` -/

/-- `Object.assign(o, extra)`: assign every property of `extra` onto `o`. -/
def assignObj (o extra : Obj) : Obj :=
  extra.foldl (fun acc kv => setKey acc kv.1 kv.2) o

/-- `ConfigMerger.flatten`, with the result object threaded as accumulator:
plain-object values recurse with the joined key as prefix (`prefix` falsy
test is the emptiness test on the prefix string), other values are stored
under the joined key. -/
def flattenAux : Obj → Str → Str → Obj → Obj
  | [], _, _, acc => acc
  | (k, .vobj m) :: rest, pre, sep, acc =>
      flattenAux rest pre sep
        (assignObj acc (flattenAux m (if pre = [] then k else pre ++ sep ++ k) sep []))
  | (k, v) :: rest, pre, sep, acc =>
      flattenAux rest pre sep (setKey acc (if pre = [] then k else pre ++ sep ++ k) v)
termination_by o _ _ _ => sizeOf o

/-- `ConfigMerger.flatten(config, prefix, separator)`. -/
def flatten (config : Obj) (pre sep : Str) : Obj := flattenAux config pre sep []

/-- Leftmost occurrence of `sep` in a string: the part before and after. -/
def findSep (sep : Str) : Str → Option (Str × Str)
  | [] => none
  | c :: rest =>
      if List.isPrefixOf sep (c :: rest) then some ([], (c :: rest).drop sep.length)
      else (findSep sep rest).map (fun p => (c :: p.1, p.2))

theorem findSep_length (sep : Str) (hs : sep ≠ []) (s : Str) (p q : Str)
    (h : findSep sep s = some (p, q)) : q.length < s.length := by
  induction s generalizing p with
  | nil => simp [findSep] at h
  | cons c rest ih =>
    rw [findSep] at h
    by_cases hp : List.isPrefixOf sep (c :: rest) = true
    · rw [if_pos hp] at h
      injection h with h
      have h2 : q = (c :: rest).drop sep.length := (Prod.ext_iff.mp h).2.symm
      subst h2
      have hlen : sep.length ≥ 1 := by
        cases sep with
        | nil => exact absurd rfl hs
        | cons a b => simp
      simp only [List.length_drop, List.length_cons]
      omega
    · rw [if_neg hp] at h
      cases hf : findSep sep rest with
      | none =>
        rw [hf] at h
        exact absurd h (by simp)
      | some pq =>
        obtain ⟨p1, q1⟩ := pq
        rw [hf] at h
        have h' : (c :: p1, q1) = (p, q) := by
          have hx : some (c :: p1, q1) = some (p, q) := h
          injection hx
        have h2 : q = q1 := (Prod.ext_iff.mp h').2.symm
        subst h2
        have := ih p1 hf
        simp only [List.length_cons]
        omega

/-- JS `String.prototype.split` with a nonempty string separator
(repeatedly cut at the leftmost occurrence).  The separator in this
development is always the single character `.` of the source's default;
JS's character-exploding behaviour for an empty separator is not modelled. -/
def jsSplit (sep s : Str) : List Str :=
  if hs : sep = [] then [s]
  else
    match hf : findSep sep s with
    | none => [s]
    | some pq => pq.1 :: jsSplit sep pq.2
termination_by s.length
decreasing_by
  exact findSep_length sep hs s pq.1 pq.2 (by rw [hf])

/-- Write `v` at a key path: descend through existing plain objects,
create missing intermediate objects.  Descending into a non-plain value
(possible only for path-conflicting flat inputs, which no theorem below
exercises) is modelled as failure, as in strict-mode JS where the
subsequent property access throws. -/
def setPath : Obj → List Str → Value → Option Obj
  | o, [], _ => some o
  | o, [k], v => some (setKey o k v)
  | o, k :: k2 :: rest, v =>
      match lookupV o k with
      | some (.vobj m) => (setPath m (k2 :: rest) v).map (fun m2 => setKey o k (.vobj m2))
      | some _ => none
      | none => (setPath [] (k2 :: rest) v).map (fun m2 => setKey o k (.vobj m2))

/-- `ConfigMerger.unflatten` loop: split each key and write the value
along the path, into the threaded result object. -/
def unflattenAux (sep : Str) : Obj → Obj → Option Obj
  | [], acc => some acc
  | (k, v) :: rest, acc =>
      match setPath acc (jsSplit sep k) v with
      | some acc2 => unflattenAux sep rest acc2
      | none => none

/-- `ConfigMerger.unflatten(config, separator)`. -/
def unflatten (config : Obj) (sep : Str) : Option Obj := unflattenAux sep config []

/-- The leaf entries of a nested object: root-to-leaf key path and value,
in source order.  `flatten` emits exactly these, with joined paths. -/
def leaves : Obj → List (List Str × Value)
  | [] => []
  | (k, .vobj m) :: rest => (leaves m).map (fun pv => (k :: pv.1, pv.2)) ++ leaves rest
  | (k, v) :: rest => ([k], v) :: leaves rest
termination_by o => sizeOf o

/-- Join a path with a single-character separator (inverse of `jsSplit [c]`). -/
def joinSegs (c : Char) : List Str → Str
  | [] => []
  | [s] => s
  | s :: rest => s ++ c :: joinSegs c rest

mutual

/-- The well-formedness under which `flatten`/`unflatten` are mutually
inverse: every key is nonempty, free of the separator character, and
unrepeated at its level, and no value is an empty plain object. -/
def goodVal (c : Char) : Value → Bool
  | .vobj m => (!m.isEmpty) && goodObj c m
  | _ => true
termination_by v => sizeOf v

def goodObj (c : Char) : Obj → Bool
  | [] => true
  | (k, v) :: rest =>
      decide (k ≠ []) && decide (c ∉ k) && decide (k ∉ keysOf rest) &&
      goodVal c v && goodObj c rest
termination_by o => sizeOf o

end

theorem goodObj_cons_iff (c : Char) (k : Str) (v : Value) (rest : Obj) :
    goodObj c ((k, v) :: rest) = true ↔
      k ≠ [] ∧ c ∉ k ∧ k ∉ keysOf rest ∧ goodVal c v = true ∧ goodObj c rest = true := by
  rw [goodObj]
  simp [Bool.and_eq_true, decide_eq_true_iff, and_assoc]

theorem goodVal_obj_iff (c : Char) (m : Obj) :
    goodVal c (.vobj m) = true ↔ m ≠ [] ∧ goodObj c m = true := by
  rw [goodVal]
  cases m <;> simp [List.isEmpty]

theorem lookupV_eq_none (o : Obj) (k : Str) (h : k ∉ keysOf o) : lookupV o k = none := by
  induction o with
  | nil => rfl
  | cons kv rest ih =>
    obtain ⟨k1, v1⟩ := kv
    have hk1 : k1 ≠ k := fun he => h (he ▸ List.mem_cons_self _ _)
    rw [lookupV, if_neg hk1]
    exact ih fun hm => h (List.mem_cons_of_mem _ hm)

theorem setKey_append_fresh (o : Obj) (k : Str) (v : Value) (h : k ∉ keysOf o) :
    setKey o k v = o ++ [(k, v)] := by
  induction o with
  | nil => rfl
  | cons kv rest ih =>
    obtain ⟨k1, v1⟩ := kv
    have hk1 : k1 ≠ k := fun he => h (he ▸ List.mem_cons_self _ _)
    rw [setKey, if_neg hk1, ih fun hm => h (List.mem_cons_of_mem _ hm)]
    rfl

theorem setKey_setKey (o : Obj) (k : Str) (v w : Value) :
    setKey (setKey o k v) k w = setKey o k w := by
  induction o with
  | nil => simp [setKey]
  | cons kv rest ih =>
    obtain ⟨k1, v1⟩ := kv
    by_cases h : k1 = k
    · subst h
      simp [setKey]
    · simp [setKey, h, ih]

theorem setKey_eq_of_lookupV (o : Obj) (k : Str) (v : Value) (h : lookupV o k = some v) :
    setKey o k v = o := by
  induction o with
  | nil => simp [lookupV] at h
  | cons kv rest ih =>
    obtain ⟨k1, v1⟩ := kv
    by_cases hk : k1 = k
    · subst hk
      rw [lookupV, if_pos rfl] at h
      injection h with h
      subst h
      rw [setKey, if_pos rfl]
    · rw [lookupV, if_neg hk] at h
      rw [setKey, if_neg hk, ih h]

theorem assignObj_nil (o : Obj) : assignObj o [] = o := rfl

theorem assignObj_cons (o : Obj) (k : Str) (v : Value) (x : Obj) :
    assignObj o ((k, v) :: x) = assignObj (setKey o k v) x := rfl

theorem assignObj_append (o x y : Obj) :
    assignObj o (x ++ y) = assignObj (assignObj o x) y := by
  simp [assignObj, List.foldl_append]

theorem assignObj_fresh (x : Obj) (o : Obj) (hnd : (keysOf x).Nodup)
    (hf : ∀ key ∈ keysOf x, key ∉ keysOf o) :
    assignObj o x = o ++ x := by
  induction x generalizing o with
  | nil => simp [assignObj]
  | cons kv rest ih =>
    obtain ⟨k, v⟩ := kv
    rw [assignObj_cons]
    have hk : k ∉ keysOf o := hf k (List.mem_cons_self _ _)
    rw [setKey_append_fresh o k v hk]
    have hnd' : (keysOf rest).Nodup := by
      have := List.nodup_cons.mp hnd
      simpa [keysOf] using this.2
    have hk' : k ∉ keysOf rest := by
      have := List.nodup_cons.mp hnd
      simpa [keysOf] using this.1
    have hfr : ∀ key ∈ keysOf rest, key ∉ keysOf (o ++ [(k, v)]) := by
      intro key hmem hcon
      simp only [keysOf, List.map_append, List.map_cons, List.map_nil] at hcon
      rcases List.mem_append.mp hcon with h1 | h1
      · exact hf key (List.mem_cons_of_mem _ hmem) h1
      · rcases List.mem_cons.mp h1 with h2 | h2
        · exact hk' (h2 ▸ hmem)
        · exact absurd h2 (List.not_mem_nil key)
    rw [ih (o ++ [(k, v)]) hnd' hfr]
    simp

theorem joinSegs_nil (c : Char) : joinSegs c [] = [] := rfl

theorem joinSegs_single (c : Char) (s : Str) : joinSegs c [s] = s := rfl

theorem joinSegs_cons₂ (c : Char) (s s2 : Str) (r2 : List Str) :
    joinSegs c (s :: s2 :: r2) = s ++ c :: joinSegs c (s2 :: r2) := rfl

theorem joinSegs_eq_nil_iff (c : Char) (segs : List Str) (h : ∀ seg ∈ segs, seg ≠ []) :
    joinSegs c segs = [] ↔ segs = [] := by
  cases segs with
  | nil => simp [joinSegs]
  | cons s rest =>
    cases rest with
    | nil =>
      simp only [joinSegs]
      have := h s (List.mem_cons_self _ _)
      simp [this]
    | cons s2 r2 =>
      rw [joinSegs_cons₂]
      constructor
      · intro he
        exact absurd he (by simp)
      · intro he
        exact absurd he (by simp)

theorem joinSegs_snoc (c : Char) (segs : List Str) (k : Str) :
    joinSegs c (segs ++ [k]) = if segs = [] then k else joinSegs c segs ++ c :: k := by
  induction segs with
  | nil => simp [joinSegs]
  | cons s rest ih =>
    cases rest with
    | nil => simp [joinSegs]
    | cons s2 r2 =>
      rw [show (s :: s2 :: r2) ++ [k] = s :: ((s2 :: r2) ++ [k]) from rfl,
          show (s2 :: r2) ++ [k] = s2 :: (r2 ++ [k]) from rfl, joinSegs_cons₂]
      rw [show s2 :: (r2 ++ [k]) = (s2 :: r2) ++ [k] from rfl, ih]
      simp [joinSegs_cons₂, List.append_assoc]

theorem findSep_not_mem (c : Char) (s : Str) (h : c ∉ s) : findSep [c] s = none := by
  induction s with
  | nil => rfl
  | cons c1 rest ih =>
    have hne : c ≠ c1 := fun he => h (he ▸ List.mem_cons_self _ _)
    rw [findSep]
    have hp : List.isPrefixOf [c] (c1 :: rest) = false := by
      simp [List.isPrefixOf, hne]
    rw [hp]
    simp only [Bool.false_eq_true, if_false]
    rw [ih fun hm => h (List.mem_cons_of_mem _ hm)]
    rfl

theorem findSep_boundary (c : Char) (s t : Str) (h : c ∉ s) :
    findSep [c] (s ++ c :: t) = some (s, t) := by
  induction s with
  | nil =>
    rw [List.nil_append, findSep]
    have hp : List.isPrefixOf [c] (c :: t) = true := by
      simp [List.isPrefixOf]
    rw [hp]
    simp
  | cons c1 rest ih =>
    have hne : c ≠ c1 := fun he => h (he ▸ List.mem_cons_self _ _)
    rw [List.cons_append, findSep]
    have hp : List.isPrefixOf [c] (c1 :: (rest ++ c :: t)) = false := by
      simp [List.isPrefixOf, hne]
    rw [hp]
    simp only [Bool.false_eq_true, if_false]
    rw [ih fun hm => h (List.mem_cons_of_mem _ hm)]
    rfl

theorem jsSplit_of_findSep_none (sep s : Str) (hs : sep ≠ []) (h : findSep sep s = none) :
    jsSplit sep s = [s] := by
  rw [jsSplit, dif_neg hs]
  split
  · rfl
  · rename_i pq heq
    rw [h] at heq
    simp at heq

theorem jsSplit_of_findSep_some (sep s p q : Str) (hs : sep ≠ [])
    (h : findSep sep s = some (p, q)) : jsSplit sep s = p :: jsSplit sep q := by
  rw [jsSplit, dif_neg hs]
  split
  · rename_i heq
    rw [h] at heq
    simp at heq
  · rename_i pq heq
    rw [h] at heq
    injection heq with heq
    subst heq
    rfl

theorem jsSplit_join (c : Char) (p : List Str) (hp : p ≠ [])
    (h : ∀ seg ∈ p, c ∉ seg) : jsSplit [c] (joinSegs c p) = p := by
  induction p with
  | nil => exact absurd rfl hp
  | cons s rest ih =>
    cases rest with
    | nil =>
      have hs : c ∉ s := h s (List.mem_cons_self _ _)
      rw [joinSegs_single, jsSplit_of_findSep_none [c] s (by simp) (findSep_not_mem c s hs)]
    | cons s2 r2 =>
      have hs : c ∉ s := h s (List.mem_cons_self _ _)
      rw [joinSegs_cons₂,
          jsSplit_of_findSep_some [c] _ s (joinSegs c (s2 :: r2)) (by simp)
            (findSep_boundary c s (joinSegs c (s2 :: r2)) hs)]
      rw [ih (by simp) (fun seg hm => h seg (List.mem_cons_of_mem _ hm))]

theorem leaves_path_spec (c : Char) (o : Obj) (hg : goodObj c o = true) :
    ∀ pv ∈ leaves o, (∃ hd tl, pv.1 = hd :: tl ∧ hd ∈ keysOf o) ∧
      (∀ seg ∈ pv.1, seg ≠ [] ∧ c ∉ seg) := by
  induction o using leaves.induct with
  | case1 =>
    intro pv hpv
    rw [leaves] at hpv
    exact absurd hpv (List.not_mem_nil pv)
  | case2 k m rest ihm ihrest =>
    obtain ⟨hk, hck, hkr, hv, hrest⟩ := (goodObj_cons_iff c k _ rest).mp hg
    obtain ⟨hm, hgm⟩ := (goodVal_obj_iff c m).mp hv
    intro pv hpv
    rw [leaves] at hpv
    rcases List.mem_append.mp hpv with h1 | h1
    · rcases List.mem_map.mp h1 with ⟨qv, hqv, hq⟩
      obtain ⟨⟨hd, tl, hqpath, _⟩, hsegs⟩ := ihm hgm qv hqv
      subst hq
      refine ⟨⟨k, qv.1, rfl, by simp [keysOf]⟩, ?_⟩
      intro seg hseg
      simp only at hseg
      rcases List.mem_cons.mp hseg with h2 | h2
      · exact h2 ▸ ⟨hk, hck⟩
      · exact hsegs seg h2
    · obtain ⟨⟨hd, tl, hqpath, hhd⟩, hsegs⟩ := ihrest hrest pv h1
      exact ⟨⟨hd, tl, hqpath, by simp [keysOf] at hhd ⊢; exact Or.inr hhd⟩, hsegs⟩
  | case3 k v rest hnobj ihrest =>
    obtain ⟨hk, hck, hkr, hv, hrest⟩ := (goodObj_cons_iff c k v rest).mp hg
    intro pv hpv
    have hleq : leaves ((k, v) :: rest) = ([k], v) :: leaves rest := by
      rw [leaves]
      exact hnobj
    rw [hleq] at hpv
    rcases List.mem_cons.mp hpv with h1 | h1
    · subst h1
      exact ⟨⟨k, [], rfl, by simp [keysOf]⟩, fun seg hseg => by
        rcases List.mem_cons.mp hseg with h2 | h2
        · exact h2 ▸ ⟨hk, hck⟩
        · exact absurd h2 (List.not_mem_nil seg)⟩
    · obtain ⟨⟨hd, tl, hqpath, hhd⟩, hsegs⟩ := ihrest hrest pv h1
      exact ⟨⟨hd, tl, hqpath, by simp [keysOf] at hhd ⊢; exact Or.inr hhd⟩, hsegs⟩

theorem leaves_ne_nil (c : Char) (o : Obj) (hg : goodObj c o = true) (ho : o ≠ []) :
    leaves o ≠ [] := by
  induction o using leaves.induct with
  | case1 => exact absurd rfl ho
  | case2 k m rest ihm ihrest =>
    obtain ⟨hk, hck, hkr, hv, hrest⟩ := (goodObj_cons_iff c k _ rest).mp hg
    obtain ⟨hm, hgm⟩ := (goodVal_obj_iff c m).mp hv
    rw [leaves]
    have := ihm hgm hm
    intro hcon
    rcases List.append_eq_nil.mp hcon with ⟨h1, _⟩
    exact this (List.map_eq_nil.mp h1)
  | case3 k v rest hnobj ihrest =>
    have hleq : leaves ((k, v) :: rest) = ([k], v) :: leaves rest := by
      rw [leaves]
      exact hnobj
    rw [hleq]
    simp

theorem leaves_paths_nodup (c : Char) (o : Obj) (hg : goodObj c o = true) :
    ((leaves o).map (fun pv => pv.1)).Nodup := by
  induction o using leaves.induct with
  | case1 =>
    rw [leaves]
    simp
  | case2 k m rest ihm ihrest =>
    obtain ⟨hk, hck, hkr, hv, hrest⟩ := (goodObj_cons_iff c k _ rest).mp hg
    obtain ⟨hm, hgm⟩ := (goodVal_obj_iff c m).mp hv
    rw [leaves]
    rw [List.map_append, List.map_map]
    apply List.Nodup.append
    · have : ((leaves m).map (fun pv => pv.1)).Nodup := ihm hgm
      have hinj : ∀ x ∈ (leaves m).map (fun pv => pv.1),
          ∀ y ∈ (leaves m).map (fun pv => pv.1), k :: x = k :: y → x = y := by
        intro x _ y _ hxy
        injection hxy
      have := List.Nodup.map_on hinj this
      rw [List.map_map] at this
      exact this
    · exact ihrest hrest
    · intro x hx hy
      rcases List.mem_map.mp hx with ⟨qv, hqv, hq⟩
      rcases List.mem_map.mp hy with ⟨rv, hrv, hr⟩
      obtain ⟨⟨hd, tl, hpath, hhd⟩, _⟩ := leaves_path_spec c rest hrest rv hrv
      have hx1 : x = k :: qv.1 := by
        simpa [Function.comp] using hq.symm
      have hx2 : x = hd :: tl := by rw [← hr, hpath]
      have hkhd : k = hd := by
        rw [hx1] at hx2
        injection hx2
      exact hkr (hkhd ▸ hhd)
  | case3 k v rest hnobj ihrest =>
    obtain ⟨hk, hck, hkr, hv, hrest⟩ := (goodObj_cons_iff c k v rest).mp hg
    have hleq : leaves ((k, v) :: rest) = ([k], v) :: leaves rest := by
      rw [leaves]
      exact hnobj
    rw [hleq, List.map_cons]
    apply List.Nodup.cons
    · intro hcon
      rcases List.mem_map.mp hcon with ⟨qv, hqv, hq⟩
      obtain ⟨⟨hd, tl, hpath, hhd⟩, _⟩ := leaves_path_spec c rest hrest qv hqv
      rw [hpath] at hq
      have : hd = k := by injection hq
      exact hkr (this ▸ hhd)
    · exact ihrest hrest

/-- Insert a list of (path, value) leaves into an object, in order. -/
def insertPaths : List (List Str × Value) → Obj → Option Obj
  | [], acc => some acc
  | (p, v) :: rest, acc =>
      match setPath acc p v with
      | some acc2 => insertPaths rest acc2
      | none => none

theorem insertPaths_append (l1 l2 : List (List Str × Value)) (acc : Obj) :
    insertPaths (l1 ++ l2) acc =
      match insertPaths l1 acc with
      | some m => insertPaths l2 m
      | none => none := by
  induction l1 generalizing acc with
  | nil => simp [insertPaths]
  | cons pv rest ih =>
    obtain ⟨p, v⟩ := pv
    rw [List.cons_append, insertPaths, insertPaths]
    cases setPath acc p v with
    | some acc2 => exact ih acc2
    | none => rfl

theorem insertPaths_cons_key (k : Str) (ls : List (List Str × Value)) (acc m0 : Obj)
    (hacc : lookupV acc k = some (.vobj m0))
    (hne : ∀ pv ∈ ls, pv.1 ≠ []) :
    insertPaths (ls.map (fun pv => (k :: pv.1, pv.2))) acc =
      match insertPaths ls m0 with
      | some m1 => some (setKey acc k (.vobj m1))
      | none => none := by
  induction ls generalizing acc m0 with
  | nil =>
    simp only [List.map_nil, insertPaths]
    rw [setKey_eq_of_lookupV acc k _ hacc]
  | cons pv rest ih =>
    obtain ⟨p, v⟩ := pv
    have hp : p ≠ [] := hne (p, v) (List.mem_cons_self _ _)
    cases p with
    | nil => exact absurd rfl hp
    | cons k2 rest2 =>
      rw [List.map_cons]
      cases hsp : setPath m0 (k2 :: rest2) v with
      | none =>
        have hl : setPath acc (k :: k2 :: rest2) v = none := by
          rw [setPath]
          simp only [hacc, hsp]
          rfl
        rw [insertPaths]
        simp only [hl]
        rw [insertPaths]
        simp only [hsp]
      | some m0' =>
        have hl : setPath acc (k :: k2 :: rest2) v = some (setKey acc k (.vobj m0')) := by
          rw [setPath]
          simp only [hacc, hsp]
          rfl
        rw [insertPaths]
        simp only [hl]
        rw [ih (setKey acc k (.vobj m0')) m0' (by rw [lookupV_setKey_self])
            (fun q hq => hne q (List.mem_cons_of_mem _ hq))]
        rw [insertPaths]
        simp only [hsp]
        cases insertPaths rest m0' with
        | some m1 => simp [setKey_setKey]
        | none => rfl

theorem insertPaths_cons_key_fresh (k : Str) (ls : List (List Str × Value)) (acc m1 : Obj)
    (hk : k ∉ keysOf acc) (hls : ls ≠ []) (hne : ∀ pv ∈ ls, pv.1 ≠ [])
    (hins : insertPaths ls [] = some m1) :
    insertPaths (ls.map (fun pv => (k :: pv.1, pv.2))) acc = some (acc ++ [(k, .vobj m1)]) := by
  cases ls with
  | nil => exact absurd rfl hls
  | cons pv rest =>
    obtain ⟨p, v⟩ := pv
    have hp : p ≠ [] := hne (p, v) (List.mem_cons_self _ _)
    cases p with
    | nil => exact absurd rfl hp
    | cons k2 rest2 =>
      rw [insertPaths] at hins
      cases hsp : setPath [] (k2 :: rest2) v with
      | none =>
        rw [hsp] at hins
        simp at hins
      | some w =>
        rw [hsp] at hins
        simp only at hins
        rw [List.map_cons, insertPaths]
        have hl : setPath acc (k :: k2 :: rest2) v = some (setKey acc k (.vobj w)) := by
          rw [setPath]
          simp only [lookupV_eq_none acc k hk, hsp]
          rfl
        simp only [hl]
        have hset : setKey acc k (.vobj w) = acc ++ [(k, .vobj w)] := setKey_append_fresh _ _ _ hk
        have hlk : lookupV (setKey acc k (.vobj w)) k = some (.vobj w) := lookupV_setKey_self _ _ _
        rw [insertPaths_cons_key k rest _ w hlk (fun q hq => hne q (List.mem_cons_of_mem _ hq))]
        rw [hins]
        simp only
        rw [setKey_setKey, setKey_append_fresh _ _ _ hk]

theorem insertPaths_leaves (c : Char) (o : Obj) (hg : goodObj c o = true) :
    ∀ acc : Obj, (∀ k ∈ keysOf o, k ∉ keysOf acc) →
      insertPaths (leaves o) acc = some (acc ++ o) := by
  induction o using leaves.induct with
  | case1 =>
    intro acc _
    rw [leaves]
    simp [insertPaths]
  | case2 k m rest ihm ihrest =>
    obtain ⟨hk, hck, hkr, hv, hrest⟩ := (goodObj_cons_iff c k _ rest).mp hg
    obtain ⟨hm, hgm⟩ := (goodVal_obj_iff c m).mp hv
    intro acc hfresh
    rw [leaves, insertPaths_append]
    have hinsm : insertPaths (leaves m) [] = some m := by
      have := ihm hgm [] (by simp [keysOf])
      simpa using this
    have hne : ∀ pv ∈ leaves m, pv.1 ≠ [] := by
      intro pv hpv
      obtain ⟨⟨hd, tl, hpath, _⟩, _⟩ := leaves_path_spec c m hgm pv hpv
      rw [hpath]
      simp
    have hkacc : k ∉ keysOf acc := hfresh k (by simp [keysOf])
    rw [insertPaths_cons_key_fresh k (leaves m) acc m hkacc (leaves_ne_nil c m hgm hm) hne hinsm]
    simp only
    have hfr : ∀ key ∈ keysOf rest, key ∉ keysOf (acc ++ [(k, Value.vobj m)]) := by
      intro key hkey hcon
      simp only [keysOf, List.map_append, List.map_cons, List.map_nil] at hcon
      rcases List.mem_append.mp hcon with h1 | h1
      · refine hfresh key ?_ h1
        simp only [keysOf, List.map_cons, List.mem_cons]
        exact Or.inr hkey
      · rcases List.mem_cons.mp h1 with h2 | h2
        · exact hkr (h2 ▸ hkey)
        · exact absurd h2 (List.not_mem_nil key)
    rw [ihrest hrest (acc ++ [(k, Value.vobj m)]) hfr]
    simp
  | case3 k v rest hnobj ihrest =>
    obtain ⟨hk, hck, hkr, hv, hrest⟩ := (goodObj_cons_iff c k v rest).mp hg
    intro acc hfresh
    have hleq : leaves ((k, v) :: rest) = ([k], v) :: leaves rest := by
      rw [leaves]
      exact hnobj
    rw [hleq, insertPaths]
    have hkacc : k ∉ keysOf acc := hfresh k (by simp [keysOf])
    have hsp : setPath acc [k] v = some (setKey acc k v) := by rw [setPath]
    simp only [hsp]
    rw [setKey_append_fresh _ _ _ hkacc]
    have hfr : ∀ key ∈ keysOf rest, key ∉ keysOf (acc ++ [(k, v)]) := by
      intro key hkey hcon
      simp only [keysOf, List.map_append, List.map_cons, List.map_nil] at hcon
      rcases List.mem_append.mp hcon with h1 | h1
      · refine hfresh key ?_ h1
        simp only [keysOf, List.map_cons, List.mem_cons]
        exact Or.inr hkey
      · rcases List.mem_cons.mp h1 with h2 | h2
        · exact hkr (h2 ▸ hkey)
        · exact absurd h2 (List.not_mem_nil key)
    rw [ihrest hrest (acc ++ [(k, v)]) hfr]
    simp

/-- The flat object `flatten` produces: the leaves of `o`, each keyed by
its separator-joined path under the given prefix path. -/
def flatLeaves (c : Char) (ps : List Str) (o : Obj) : Obj :=
  (leaves o).map (fun pv => (joinSegs c (ps ++ pv.1), pv.2))

theorem flatLeaves_nil (c : Char) (ps : List Str) : flatLeaves c ps [] = [] := by
  rw [flatLeaves, leaves]
  rfl

theorem flatLeaves_cons_obj (c : Char) (ps : List Str) (k : Str) (m rest : Obj) :
    flatLeaves c ps ((k, .vobj m) :: rest)
      = flatLeaves c (ps ++ [k]) m ++ flatLeaves c ps rest := by
  rw [flatLeaves, leaves, List.map_append, List.map_map]
  rw [flatLeaves, flatLeaves]
  congr 1
  apply List.map_congr_left
  intro pv _
  simp only [Function.comp]
  rw [List.append_assoc]
  rfl

theorem flatLeaves_cons_other (c : Char) (ps : List Str) (k : Str) (v : Value) (rest : Obj)
    (hnobj : ∀ m, v ≠ .vobj m) :
    flatLeaves c ps ((k, v) :: rest)
      = (joinSegs c (ps ++ [k]), v) :: flatLeaves c ps rest := by
  have hleq : leaves ((k, v) :: rest) = ([k], v) :: leaves rest := by
    rw [leaves]
    intro m hm
    exact hnobj m hm
  rw [flatLeaves, hleq, List.map_cons, flatLeaves]

theorem keysOf_flatLeaves (c : Char) (ps : List Str) (o : Obj) :
    keysOf (flatLeaves c ps o)
      = ((leaves o).map (fun pv => pv.1)).map (fun p => joinSegs c (ps ++ p)) := by
  simp [flatLeaves, keysOf, List.map_map, Function.comp]

theorem flatLeaves_keys_nodup (c : Char) (ps : List Str) (o : Obj) (hg : goodObj c o = true)
    (hps : ∀ seg ∈ ps, seg ≠ [] ∧ c ∉ seg) :
    (keysOf (flatLeaves c ps o)).Nodup := by
  rw [keysOf_flatLeaves]
  apply List.Nodup.map_on ?inj (leaves_paths_nodup c o hg)
  case inj =>
    intro p1 hp1 p2 hp2 hjoin
    rcases List.mem_map.mp hp1 with ⟨pv1, hpv1, hq1⟩
    rcases List.mem_map.mp hp2 with ⟨pv2, hpv2, hq2⟩
    obtain ⟨⟨hd1, tl1, hpath1, _⟩, hsegs1⟩ := leaves_path_spec c o hg pv1 hpv1
    obtain ⟨⟨hd2, tl2, hpath2, _⟩, hsegs2⟩ := leaves_path_spec c o hg pv2 hpv2
    have hsplit1 : jsSplit [c] (joinSegs c (ps ++ p1)) = ps ++ p1 := by
      apply jsSplit_join
      · intro hcon
        rcases List.append_eq_nil.mp hcon with ⟨_, h2⟩
        rw [← hq1, hpath1] at h2
        cases h2
      · intro seg hseg
        rcases List.mem_append.mp hseg with h1 | h1
        · exact (hps seg h1).2
        · rw [← hq1] at h1
          exact (hsegs1 seg h1).2
    have hsplit2 : jsSplit [c] (joinSegs c (ps ++ p2)) = ps ++ p2 := by
      apply jsSplit_join
      · intro hcon
        rcases List.append_eq_nil.mp hcon with ⟨_, h2⟩
        rw [← hq2, hpath2] at h2
        cases h2
      · intro seg hseg
        rcases List.mem_append.mp hseg with h1 | h1
        · exact (hps seg h1).2
        · rw [← hq2] at h1
          exact (hsegs2 seg h1).2
    have : ps ++ p1 = ps ++ p2 := by
      rw [← hsplit1, ← hsplit2, hjoin]
    exact List.append_cancel_left this

theorem flattenAux_eq (c : Char) (o : Obj) (hg : goodObj c o = true) :
    ∀ (ps : List Str) (acc : Obj),
      (∀ seg ∈ ps, seg ≠ [] ∧ c ∉ seg) →
      (∀ key ∈ keysOf (flatLeaves c ps o), key ∉ keysOf acc) →
      flattenAux o (joinSegs c ps) [c] acc = acc ++ flatLeaves c ps o := by
  induction o using leaves.induct with
  | case1 =>
    intro ps acc _ _
    rw [flattenAux, flatLeaves_nil, List.append_nil]
  | case2 k m rest ihm ihrest =>
    obtain ⟨hk, hck, hkr, hv, hrest⟩ := (goodObj_cons_iff c k _ rest).mp hg
    obtain ⟨hm, hgm⟩ := (goodVal_obj_iff c m).mp hv
    intro ps acc hps hfresh
    have hpsk : ∀ seg ∈ ps ++ [k], seg ≠ [] ∧ c ∉ seg := by
      intro seg hseg
      rcases List.mem_append.mp hseg with h1 | h1
      · exact hps seg h1
      · rcases List.mem_cons.mp h1 with h2 | h2
        · exact h2 ▸ ⟨hk, hck⟩
        · exact absurd h2 (List.not_mem_nil seg)
    have hnewKey : (if joinSegs c ps = [] then k else joinSegs c ps ++ [c] ++ k)
        = joinSegs c (ps ++ [k]) := by
      rw [joinSegs_snoc]
      by_cases hpse : ps = []
      · subst hpse
        simp [joinSegs_nil]
      · have hjne : joinSegs c ps ≠ [] := fun hcon =>
          hpse ((joinSegs_eq_nil_iff c ps fun seg hs => (hps seg hs).1).mp hcon)
        rw [if_neg hjne, if_neg hpse, List.append_assoc]
        rfl
    rw [flattenAux, hnewKey]
    have hinner : flattenAux m (joinSegs c (ps ++ [k])) [c] [] = flatLeaves c (ps ++ [k]) m := by
      have := ihm hgm (ps ++ [k]) [] hpsk (by simp [keysOf])
      simpa using this
    rw [hinner]
    have hflkeys : keysOf (flatLeaves c ps ((k, Value.vobj m) :: rest))
        = keysOf (flatLeaves c (ps ++ [k]) m) ++ keysOf (flatLeaves c ps rest) := by
      rw [flatLeaves_cons_obj]
      simp [keysOf]
    have hnodupAll : (keysOf (flatLeaves c ps ((k, Value.vobj m) :: rest))).Nodup :=
      flatLeaves_keys_nodup c ps _ hg hps
    rw [hflkeys] at hnodupAll
    obtain ⟨hnodupM, hnodupR, hdisj⟩ := List.nodup_append.mp hnodupAll
    have hassign : assignObj acc (flatLeaves c (ps ++ [k]) m)
        = acc ++ flatLeaves c (ps ++ [k]) m := by
      apply assignObj_fresh _ _ hnodupM
      intro key hkey
      apply hfresh key
      rw [hflkeys]
      exact List.mem_append.mpr (Or.inl hkey)
    rw [hassign]
    have hfr : ∀ key ∈ keysOf (flatLeaves c ps rest),
        key ∉ keysOf (acc ++ flatLeaves c (ps ++ [k]) m) := by
      intro key hkey hcon
      rw [keysOf, List.map_append] at hcon
      rcases List.mem_append.mp hcon with h1 | h1
      · exact hfresh key (by rw [hflkeys]; exact List.mem_append.mpr (Or.inr hkey)) h1
      · exact hdisj h1 hkey
    rw [ihrest hrest ps (acc ++ flatLeaves c (ps ++ [k]) m) hps hfr]
    rw [flatLeaves_cons_obj, List.append_assoc]
  | case3 k v rest hnobj ihrest =>
    obtain ⟨hk, hck, hkr, hv, hrest⟩ := (goodObj_cons_iff c k v rest).mp hg
    intro ps acc hps hfresh
    have hnobj' : ∀ m, v ≠ Value.vobj m := fun m hm => hnobj m hm
    have hnewKey : (if joinSegs c ps = [] then k else joinSegs c ps ++ [c] ++ k)
        = joinSegs c (ps ++ [k]) := by
      rw [joinSegs_snoc]
      by_cases hpse : ps = []
      · subst hpse
        simp [joinSegs_nil]
      · have hjne : joinSegs c ps ≠ [] := fun hcon =>
          hpse ((joinSegs_eq_nil_iff c ps fun seg hs => (hps seg hs).1).mp hcon)
        rw [if_neg hjne, if_neg hpse, List.append_assoc]
        rfl
    have hfl : flatLeaves c ps ((k, v) :: rest)
        = (joinSegs c (ps ++ [k]), v) :: flatLeaves c ps rest :=
      flatLeaves_cons_other c ps k v rest hnobj'
    have heq : flattenAux ((k, v) :: rest) (joinSegs c ps) [c] acc
        = flattenAux rest (joinSegs c ps) [c]
            (setKey acc (if joinSegs c ps = [] then k
                         else joinSegs c ps ++ [c] ++ k) v) := by
      rw [flattenAux]
      exact hnobj
    rw [heq, hnewKey]
    have hkfresh : joinSegs c (ps ++ [k]) ∉ keysOf acc := by
      apply hfresh
      rw [hfl, keysOf, List.map_cons]
      exact List.mem_cons_self _ _
    rw [setKey_append_fresh _ _ _ hkfresh]
    have hnodupAll : (keysOf (flatLeaves c ps ((k, v) :: rest))).Nodup :=
      flatLeaves_keys_nodup c ps _ hg hps
    rw [hfl, keysOf, List.map_cons] at hnodupAll
    obtain ⟨hnotin, hnodupR⟩ := List.nodup_cons.mp hnodupAll
    have hfr : ∀ key ∈ keysOf (flatLeaves c ps rest),
        key ∉ keysOf (acc ++ [(joinSegs c (ps ++ [k]), v)]) := by
      intro key hkey hcon
      rw [keysOf, List.map_append, List.map_cons, List.map_nil] at hcon
      rcases List.mem_append.mp hcon with h1 | h1
      · exact hfresh key (by rw [hfl, keysOf, List.map_cons]; exact List.mem_cons_of_mem _ hkey) h1
      · rcases List.mem_cons.mp h1 with h2 | h2
        · exact hnotin (h2 ▸ hkey)
        · exact absurd h2 (List.not_mem_nil key)
    rw [ihrest hrest ps (acc ++ [(joinSegs c (ps ++ [k]), v)]) hps hfr]
    rw [hfl, List.append_assoc]
    rfl

theorem flatten_eq_flatLeaves (c : Char) (o : Obj) (hg : goodObj c o = true) :
    flatten o [] [c] = flatLeaves c [] o := by
  have := flattenAux_eq c o hg [] [] (by simp) (by simp [keysOf])
  rw [joinSegs_nil] at this
  simpa [flatten] using this

theorem unflattenAux_map_join (c : Char) (ls : List (List Str × Value)) (acc : Obj)
    (hgood : ∀ pv ∈ ls, pv.1 ≠ [] ∧ ∀ seg ∈ pv.1, c ∉ seg) :
    unflattenAux [c] (ls.map (fun pv => (joinSegs c pv.1, pv.2))) acc = insertPaths ls acc := by
  induction ls generalizing acc with
  | nil => rfl
  | cons pv rest ih =>
    obtain ⟨p, v⟩ := pv
    obtain ⟨hp, hsegs⟩ := hgood (p, v) (List.mem_cons_self _ _)
    rw [List.map_cons, unflattenAux]
    simp only
    rw [jsSplit_join c p hp hsegs]
    rw [insertPaths]
    cases setPath acc p v with
    | some acc2 => exact ih acc2 fun q hq => hgood q (List.mem_cons_of_mem _ hq)
    | none => rfl

/-- The flatten/unflatten round trip for well-formed objects. -/
theorem unflatten_flatten (c : Char) (A : Obj) (hg : goodObj c A = true) :
    unflatten (flatten A [] [c]) [c] = some A := by
  rw [flatten_eq_flatLeaves c A hg]
  have hfl : flatLeaves c [] A = (leaves A).map (fun pv => (joinSegs c pv.1, pv.2)) := by
    rw [flatLeaves]
    apply List.map_congr_left
    intro pv _
    rw [List.nil_append]
  rw [unflatten, hfl]
  rw [unflattenAux_map_join c (leaves A) [] ?good]
  case good =>
    intro pv hpv
    obtain ⟨⟨hd, tl, hpath, _⟩, hsegs⟩ := leaves_path_spec c A hg pv hpv
    exact ⟨by rw [hpath]; simp, fun seg hs => (hsegs seg hs).2⟩
  have := insertPaths_leaves c A hg [] (by simp [keysOf])
  simpa using this

/-- C7 (amended): `flatten` and `unflatten` are mutually inverse on
configuration objects whose key names (at every level) are nonempty,
contain no separator character and are unrepeated at their level, and
which contain no empty plain-object value:
`unflatten (flatten obj '' sep) sep = obj`, and consequently
`flatten (unflatten flat sep) '' sep = flat` for every `flat` in the image
of `flatten` on such objects. -/
theorem c7_flatten_unflatten_inverse (c : Char) (A : Obj) (hg : goodObj c A = true) :
    unflatten (flatten A [] [c]) [c] = some A ∧
    (unflatten (flatten A [] [c]) [c]).map (fun B => flatten B [] [c])
      = some (flatten A [] [c]) := by
  refine ⟨unflatten_flatten c A hg, ?_⟩
  rw [unflatten_flatten c A hg]
  rfl

theorem c7_flatten_unflatten_inverse_witness :
    unflatten (flatten [(['a'], Value.vstr ['1'])] [] ['.']) ['.']
        = some [(['a'], Value.vstr ['1'])] ∧
    (unflatten (flatten [(['a'], Value.vstr ['1'])] [] ['.']) ['.']).map
        (fun B => flatten B [] ['.'])
      = some (flatten [(['a'], Value.vstr ['1'])] [] ['.']) := by
  apply c7_flatten_unflatten_inverse '.' [(['a'], Value.vstr ['1'])]
  rw [goodObj_cons_iff]
  refine ⟨by simp, by simp, by simp [keysOf], by simp [goodVal], by rw [goodObj]⟩

/-- C7 (counterexample to the claim as stated): the object `{a: {}}` has
no separator character in any key name, yet flattening drops the empty
nested object entirely, so unflattening the result gives `{}`, not the
original object. -/
theorem c7_counterexample :
    ('.' ∈ (['a'] : Str)) = False ∧
    unflatten (flatten [(['a'], Value.vobj [])] [] ['.']) ['.']
      ≠ some [(['a'], Value.vobj [])] := by
  constructor
  · simp
  · have hfe : flatten [(['a'], Value.vobj [])] [] ['.'] = [] := by
      rw [flatten, flattenAux, flattenAux, flattenAux]
      rfl
    rw [hfe]
    intro hcon
    rw [unflatten, unflattenAux] at hcon
    injection hcon with hcon
    cases hcon

/-- C10: `flatten` drops every field whose value is an empty plain object:
`flatten {a: {}}` is `{}`, `unflatten` of that is `{}`, and the key `a`
(which contains no separator character) is lost. -/
theorem c10_flatten_drops_empty_object :
    flatten [(['a'], Value.vobj [])] [] ['.'] = [] ∧
    unflatten ([] : Obj) ['.'] = some [] ∧
    ('.' ∈ (['a'] : Str)) = False ∧
    ([] : Obj) ≠ [(['a'], Value.vobj [])] := by
  refine ⟨?_, rfl, by simp, ?_⟩
  · rw [flatten, flattenAux, flattenAux, flattenAux]
    rfl
  · intro hcon
    cases hcon

/-! ## SchemaValidator (src/packages/core/src/SchemaValidator.ts) -/

/-- Generic association-list lookup (schemas, shapes). -/
def lookupA {α : Type} : List (Str × α) → Str → Option α
  | [], _ => none
  | (k, v) :: rest, key => if k = key then some v else lookupA rest key

/-- `ConfigFieldSchema` (core/src/index.ts): the declared contract of one
configuration field. -/
structure FieldSpec where
  type : Str
  required : Bool := false
  default : Option Value := none
  secret : Bool := false
  pattern : Option Str := none
  minLength : Option Nat := none
  maxLength : Option Nat := none
  min : Option Int := none
  max : Option Int := none
  enum : Option (List Str) := none

/-- `ConfigSchema`: field name to field schema. -/
abbrev Schema := List (Str × FieldSpec)

/-- Modelled from the spec: JavaScript `RegExp` (the host runtime's regex
engine, external to this repository), restricted to the fragment the
pattern-semantics claims exercise: an optional leading `^` anchor, a body
of literal non-metacharacter characters, and an optional trailing `$`
anchor.  A pattern outside the fragment is treated as failing to compile
(the lone metacharacters used below, such as `(`, are genuinely invalid in
ECMA-262); within the fragment the model follows ECMA-262 semantics. -/
structure JsRegex where
  anchoredStart : Bool
  body : Str
  anchoredEnd : Bool

/-- Regex metacharacters: outside the modelled literal fragment. -/
def regexSpecials : Str :=
  ['\\', '^', '$', '.', '*', '+', '?', '(', ')', '[', ']', '\x7b', '\x7d', '|']

/-- Modelled from the spec: `new RegExp(pattern)` on the fragment —
strip anchors, require a literal body (`none` = the constructor throws). -/
def regexCompile (p : Str) : Option JsRegex :=
  let step1 := if p.head? = some '^' then (true, p.tail) else (false, p)
  let step2 := if step1.2.getLast? = some '$' then (true, step1.2.dropLast) else (false, step1.2)
  if step2.2.all (fun ch => !(regexSpecials.contains ch)) then
    some ⟨step1.1, step2.2, step2.1⟩
  else none

/-- Left-to-right scan for an occurrence of `needle` (substring search). -/
def strIncludes (needle : Str) : Str → Bool
  | [] => needle.isEmpty
  | c :: rest => List.isPrefixOf needle (c :: rest) || strIncludes needle rest

/-- Modelled from the spec: ECMA-262 `RegExp.prototype.test` on the
fragment — a search for a match anywhere, anchored only where the pattern
says so. -/
def jsRegexTest (r : JsRegex) (s : Str) : Bool :=
  match r.anchoredStart, r.anchoredEnd with
  | true, true => s == r.body
  | true, false => List.isPrefixOf r.body s
  | false, true => List.isPrefixOf r.body.reverse s.reverse
  | false, false => strIncludes r.body s

/-- The spec's words — the value "must fully match a compiled regular
expression": the regex matches the entire value (for a literal-body
pattern, equality with the body). -/
def specFullMatch (r : JsRegex) (s : Str) : Bool := s == r.body

/-- The Zod validator built per field by `buildZodSchema`. -/
inductive ZodType where
  | zstring (pattern : Option JsRegex) (minLength maxLength : Option Nat)
  | zenum (vals : List Str)
  | znumber (min max : Option Int)
  | zboolean
  | zany

/-- Required/default/optional wrapping applied after the type dispatch. -/
inductive ZodField where
  | required (t : ZodType)
  | withDefault (t : ZodType) (d : Value)
  | optional (t : ZodType)

instance : Inhabited ZodType := ⟨ZodType.zany⟩

instance : Inhabited ZodField := ⟨ZodField.optional ZodType.zany⟩

/-- The type dispatch of `buildZodSchema` for one field: `string` compiles
the pattern (an invalid pattern throws, i.e. `none`) and lets `enum`
supersede the whole string validator; `number` carries its bounds;
unknown types fall into the permissive `default:` branch (`z.any()`). -/
def buildFieldValidator (fs : FieldSpec) : Option ZodType :=
  if fs.type = "string".toList then
    match fs.pattern with
    | some p =>
        match regexCompile p with
        | some r =>
            some (match fs.enum with
                  | some vs => .zenum vs
                  | none => .zstring (some r) fs.minLength fs.maxLength)
        | none => none
    | none =>
        some (match fs.enum with
              | some vs => .zenum vs
              | none => .zstring none fs.minLength fs.maxLength)
  else if fs.type = "number".toList then some (.znumber fs.min fs.max)
  else if fs.type = "boolean".toList then some .zboolean
  else if fs.type = "json".toList then some .zany
  else some .zany

/-- Required fields stay bare; optional fields take their default when one
is declared, else `.optional()`. -/
def wrapField (fs : FieldSpec) (t : ZodType) : ZodField :=
  if fs.required then .required t
  else match fs.default with
       | some d => .withDefault t d
       | none => .optional t

/-- `buildZodSchema`: build every field's validator; a throw anywhere
(invalid pattern) aborts construction. -/
def buildShape : Schema → Option (List (Str × ZodField))
  | [] => some []
  | (name, fs) :: rest =>
      match buildFieldValidator fs with
      | some t => (buildShape rest).map (fun sh => (name, wrapField fs t) :: sh)
      | none => none

/-- A constructed validator: the original schema plus the built Zod shape. -/
structure SchemaValidator where
  schema : Schema
  shape : List (Str × ZodField)

/-- The `SchemaValidator` constructor (runs `buildZodSchema`; `none` models
the construction-time throw). -/
def buildValidator (schema : Schema) : Option SchemaValidator :=
  (buildShape schema).map (fun sh => ⟨schema, sh⟩)

def msgInvalidType : Str := "invalid type".toList
def msgPattern : Str := "pattern mismatch".toList
def msgTooSmall : Str := "too small".toList
def msgTooBig : Str := "too big".toList
def msgEnum : Str := "not in enum".toList
def msgRequired : Str := "required".toList
def msgUnknownField : Str := "field not in schema".toList

/-- Zod check of one value against one field type, collecting every issue
in check order (messages abstracted). -/
def checkZodType : ZodType → Value → List Str
  | .zstring pat minL maxL, .vstr s =>
      (match pat with
       | some r => if jsRegexTest r s then [] else [msgPattern]
       | none => []) ++
      (match minL with
       | some n => if s.length < n then [msgTooSmall] else []
       | none => []) ++
      (match maxL with
       | some n => if s.length > n then [msgTooBig] else []
       | none => [])
  | .zstring _ _ _, _ => [msgInvalidType]
  | .zenum vs, .vstr s => if s ∈ vs then [] else [msgEnum]
  | .zenum _, _ => [msgInvalidType]
  | .znumber mn mx, .vnum n =>
      (match mn with
       | some lo => if n < lo then [msgTooSmall] else []
       | none => []) ++
      (match mx with
       | some hi => if n > hi then [msgTooBig] else []
       | none => [])
  | .znumber _ _, _ => [msgInvalidType]
  | .zboolean, .vbool _ => []
  | .zboolean, _ => [msgInvalidType]
  | .zany, _ => []

/-- Zod check of one shape field against the (possibly absent) value:
required-absent is an error, a declared default is substituted (and
itself parsed, as Zod v3 does), optional-absent passes. -/
def checkZodField : ZodField → Option Value → List Str
  | .required t, some v => checkZodType t v
  | .required _, none => [msgRequired]
  | .withDefault t _, some v => checkZodType t v
  | .withDefault t d, none => checkZodType t d
  | .optional t, some v => checkZodType t v
  | .optional _, none => []

/-- `zodSchema.parse(config)`: check each declared field; fields of the
config not in the shape are stripped (Zod object default), hence ignored. -/
def zodParseIssues : List (Str × ZodField) → Obj → List (Str × Str)
  | [], _ => []
  | (name, f) :: rest, config =>
      (checkZodField f (lookupV config name)).map (fun m => (name, m))
        ++ zodParseIssues rest config

/-- `ValidationError` of the source: field, message, offending value. -/
structure ValidationError where
  field : Str
  message : Str
  value : Option Value

/-- `ValidationResult` of the source. -/
structure ValidationResult where
  valid : Bool
  errors : List ValidationError

/-- `SchemaValidator.validate`: parse; on issues, report each with the
value looked up at the issue's path. -/
def validate (sv : SchemaValidator) (config : Obj) : ValidationResult :=
  let issues := zodParseIssues sv.shape config
  if issues.isEmpty then ⟨true, []⟩
  else ⟨false, issues.map (fun im => ⟨im.1, im.2, lookupV config im.1⟩)⟩

/-- The defaults of every field that declares one (`getDefaults`, and the
temp config seeding of `validateField`). -/
def defaultsOf : Schema → Obj
  | [] => []
  | (name, fs) :: rest =>
      match fs.default with
      | some d => (name, d) :: defaultsOf rest
      | none => defaultsOf rest

/-- `SchemaValidator.validateField`: unknown fields are rejected outright
with a single error; known fields are validated as the only override on
top of all defaults, errors filtered to the field. -/
def validateField (sv : SchemaValidator) (fieldName : Str) (value : Value) : ValidationResult :=
  match lookupA sv.schema fieldName with
  | none => ⟨false, [⟨fieldName, msgUnknownField, some value⟩]⟩
  | some _ =>
      let tempConfig := setKey (defaultsOf sv.schema) fieldName value
      let result := validate sv tempConfig
      let errs := result.errors.filter (fun e => e.field == fieldName)
      ⟨errs.length == 0, errs⟩

/-- C3 (counterexample to the claim as stated): a schema whose single
field has the unknown type `frobnicate` constructs successfully — the
`switch` falls into the permissive `default: z.any()` branch instead of
failing fast. -/
theorem c3_counterexample :
    (buildValidator [("FIELD".toList, { type := "frobnicate".toList : FieldSpec })]).isSome
      = true := by rfl

/-- C3 (amended): an invalid regular-expression pattern on a string field
does fail at construction time (`new RegExp` throws inside the
constructor's `buildZodSchema`), and never surfaces at validation time;
but an unknown field type does not fail at all — it builds the permissive
`z.any()` validator of the `default:` branch. -/
theorem c3_construction (nameF : Str) (fs : FieldSpec) (rest : Schema) (p : Str)
    (htype : fs.type = "string".toList) (hpat : fs.pattern = some p)
    (hbad : regexCompile p = none) :
    buildValidator ((nameF, fs) :: rest) = none ∧
    ∀ gs : FieldSpec, gs.type ≠ "string".toList → gs.type ≠ "number".toList →
      gs.type ≠ "boolean".toList → gs.type ≠ "json".toList →
      buildFieldValidator gs = some .zany := by
  constructor
  · have hfv : buildFieldValidator fs = none := by
      rw [buildFieldValidator, if_pos htype]
      simp only [hpat, hbad]
    rw [buildValidator, buildShape, hfv]
    rfl
  · intro gs h1 h2 h3 h4
    rw [buildFieldValidator, if_neg h1, if_neg h2, if_neg h3, if_neg h4]

theorem c3_construction_witness :
    buildValidator [((['F'] : Str),
        { type := "string".toList, pattern := some ['('] : FieldSpec })] = none ∧
    buildFieldValidator { type := "frobnicate".toList : FieldSpec } = some .zany :=
  ⟨(c3_construction ['F'] { type := "string".toList, pattern := some ['('] } [] ['(']
      rfl rfl rfl).1,
   (c3_construction ['F'] { type := "string".toList, pattern := some ['('] } [] ['(']
      rfl rfl rfl).2 { type := "frobnicate".toList } (by decide) (by decide)
      (by decide) (by decide)⟩

theorem buildFieldValidator_string_pattern (p : Str) (r : JsRegex)
    (hc : regexCompile p = some r) :
    buildFieldValidator { type := "string".toList, required := true, pattern := some p }
      = some (.zstring (some r) none none) := by
  rw [buildFieldValidator, if_pos rfl]
  simp only [hc]

/-- C4 (counterexample to the claim as stated): for the pattern `b` the
validator accepts the value `abc`, which merely contains a match of the
pattern and does not fully match it. -/
theorem c4_counterexample :
    (buildValidator [(['f'],
        { type := "string".toList, required := true, pattern := some ['b'] : FieldSpec })]).map
      (fun sv => (validate sv [(['f'], Value.vstr ['a', 'b', 'c'])]).valid) = some true ∧
    regexCompile ['b'] = some ⟨false, ['b'], false⟩ ∧
    specFullMatch ⟨false, ['b'], false⟩ ['a', 'b', 'c'] = false := by
  refine ⟨?_, rfl, rfl⟩
  rfl

/-- C4 (amended): a present string value for a pattern-constrained field
(no enum) is accepted iff `RegExp.prototype.test` finds a match — JS
search semantics, anchored only where the pattern itself is anchored —
not iff the value fully matches the pattern. -/
theorem c4_pattern_search (nameF p : Str) (r : JsRegex) (s : Str)
    (hc : regexCompile p = some r) :
    (buildValidator [(nameF,
        { type := "string".toList, required := true, pattern := some p })]).map
      (fun sv => (validate sv [(nameF, Value.vstr s)]).valid)
    = some (jsRegexTest r s) := by
  have hshape : buildShape
      [(nameF, { type := "string".toList, required := true, pattern := some p })]
      = some [(nameF, ZodField.required (ZodType.zstring (some r) none none))] := by
    rw [buildShape, buildFieldValidator_string_pattern p r hc]
    rfl
  rw [buildValidator, hshape]
  show some ((validate
      ⟨[(nameF, { type := "string".toList, required := true, pattern := some p })],
       [(nameF, ZodField.required (ZodType.zstring (some r) none none))]⟩
      [(nameF, Value.vstr s)]).valid) = some (jsRegexTest r s)
  have hlk : lookupV [(nameF, Value.vstr s)] nameF = some (Value.vstr s) := by
    rw [lookupV, if_pos rfl]
  have hiss : zodParseIssues [(nameF, ZodField.required (ZodType.zstring (some r) none none))]
      [(nameF, Value.vstr s)]
      = (if jsRegexTest r s then [] else [msgPattern]).map (fun m => (nameF, m)) := by
    rw [zodParseIssues, zodParseIssues, hlk]
    simp [checkZodField, checkZodType]
  rw [validate]
  rw [hiss]
  cases ht : jsRegexTest r s with
  | false => simp [ht]
  | true => simp [ht]

theorem c4_pattern_search_witness :
    (buildValidator [(['f'],
        { type := "string".toList, required := true, pattern := some ['b'] })]).map
      (fun sv => (validate sv [(['f'], Value.vstr ("abc".toList))]).valid)
    = some (jsRegexTest ⟨false, ['b'], false⟩ ("abc".toList)) :=
  c4_pattern_search ['f'] ['b'] ⟨false, ['b'], false⟩ ("abc".toList) rfl

theorem zodParseIssues_fields (shape : List (Str × ZodField)) (config : Obj) :
    ∀ im ∈ zodParseIssues shape config, im.1 ∈ shape.map Prod.fst := by
  induction shape with
  | nil =>
    intro im him
    rw [zodParseIssues] at him
    exact absurd him (List.not_mem_nil im)
  | cons nf rest ih =>
    obtain ⟨nameF, f⟩ := nf
    intro im him
    rw [zodParseIssues] at him
    rcases List.mem_append.mp him with h1 | h1
    · rcases List.mem_map.mp h1 with ⟨msg, _, hmsg⟩
      rw [List.map_cons]
      exact hmsg ▸ List.mem_cons_self _ _
    · rw [List.map_cons]
      exact List.mem_cons_of_mem _ (ih im h1)

theorem zodParseIssues_setKey_unknown (shape : List (Str × ZodField)) (config : Obj)
    (k : Str) (w : Value) (hk : k ∉ shape.map Prod.fst) :
    zodParseIssues shape (setKey config k w) = zodParseIssues shape config := by
  induction shape with
  | nil => rfl
  | cons nf rest ih =>
    obtain ⟨nameF, f⟩ := nf
    have hne : k ≠ nameF := by
      intro hcon
      exact hk (by rw [List.map_cons, hcon]; exact List.mem_cons_self _ _)
    rw [zodParseIssues, zodParseIssues, lookupV_setKey_other _ _ _ _ hne,
        ih fun hm => hk (by rw [List.map_cons]; exact List.mem_cons_of_mem _ hm)]

/-- C9: `validateField` on a name not declared in the schema returns an
invalid result with exactly one error for that field, while `validate`
ignores config fields absent from the (Zod) shape — the two entry points
treat unknown fields asymmetrically. -/
theorem c9_validateField_unknown (sv : SchemaValidator) (nameF : Str) (v : Value)
    (h : lookupA sv.schema nameF = none) :
    (validateField sv nameF v
      = ⟨false, [⟨nameF, msgUnknownField, some v⟩]⟩) ∧
    (∀ (config : Obj) (k : Str) (w : Value), k ∉ sv.shape.map Prod.fst →
      validate sv (setKey config k w) = validate sv config) := by
  constructor
  · rw [validateField, h]
  · intro config k w hk
    have hiss : zodParseIssues sv.shape (setKey config k w) = zodParseIssues sv.shape config :=
      zodParseIssues_setKey_unknown sv.shape config k w hk
    rw [validate, validate, hiss]
    cases he : (zodParseIssues sv.shape config).isEmpty with
    | true => simp [he]
    | false =>
      simp only [he, Bool.false_eq_true, if_false]
      congr 1
      apply List.map_congr_left
      intro im him
      have hmem : im.1 ∈ sv.shape.map Prod.fst := zodParseIssues_fields _ _ im him
      have hne : k ≠ im.1 := fun hcon => hk (hcon ▸ hmem)
      rw [lookupV_setKey_other _ _ _ _ hne]

theorem c9_validateField_unknown_witness :
    validateField ⟨[], []⟩ ['x'] Value.vnull
      = ⟨false, [⟨['x'], msgUnknownField, some Value.vnull⟩]⟩ ∧
    validate ⟨[], []⟩ (setKey [] ['x'] Value.vnull) = validate ⟨[], []⟩ [] :=
  ⟨(c9_validateField_unknown ⟨[], []⟩ ['x'] Value.vnull rfl).1,
   (c9_validateField_unknown ⟨[], []⟩ ['x'] Value.vnull rfl).2 [] ['x'] Value.vnull
     (by simp)⟩

end LdesignEnv
